import Mathlib

/-!
Verification model of the record deduplication / normalization engine and the
retry wrapper in `deejay_set_processor/deduplice_summary.py`.

Tables are lists of rows of string cells.  Python text primitives
(`str.strip`, `str.split`, `int(...)`, `str(int)`, `float(...)`) are modelled
character-by-character over `List Char`.  The `unicodedata` pipeline inside
`_normalize_key_cell` (NFKD, strip combining marks, NFKC, strip format chars)
is modelled as a character-level fold covering the Latin-1 accent range plus
the common zero-width/format characters; characters outside that range are
left unchanged.  Binary floating point is modelled by exact rational
arithmetic: every numeric literal appearing in the source (1.5, 90.0, 1e-9,
the power-of-two backoff ladder) is dyadic, so float and rational results
agree on everything the theorems below evaluate.
-/

set_option autoImplicit false

namespace DedupSpec

/-- The Python whitespace characters (the set recognised by `str.strip()` /
`str.split()`), as far as this model enumerates them explicitly. -/
def pyWSChars : List Char :=
  [' ', '\t', '\n', '\r', '\x0b', '\x0c', '\x1c', '\x1d', '\x1e', '\x1f',
   '\u0085', ' ', ' ', ' ', ' ', ' ', ' ', ' ', ' ', ' ',
   ' ', ' ', ' ', ' ', ' ', ' ', ' ', ' ', '　']

def isPyWS (c : Char) : Bool :=
  pyWSChars.contains c

/-- `s.replace(NBSP, " ")` at the character level. -/
def nbspToSpace (c : Char) : Char :=
  if c = ' ' then ' ' else c

/-- The replacements performed at the top of `_normalize_key_cell`:
NBSP, tab, CR and LF all become a plain space. -/
def wsToSpace (c : Char) : Char :=
  if c = ' ' || c = '\t' || c = '\r' || c = '\n' then ' ' else c

/-- Strip leading Python whitespace. -/
def dropLeadWS : List Char → List Char
  | [] => []
  | c :: cs => if isPyWS c then dropLeadWS cs else c :: cs

/-- Python `str.strip()` on a character list. -/
def pyStripL (l : List Char) : List Char :=
  (dropLeadWS ((dropLeadWS l).reverse)).reverse

/-- `_strip_cell_value`: NBSP → space, then strip leading/trailing whitespace.
(`None` cells never occur in this model; sheet values are strings.) -/
def stripCellL (l : List Char) : List Char :=
  pyStripL (l.map nbspToSpace)

def stripCell (s : String) : String :=
  ⟨stripCellL s.data⟩

/-- Accent folding: the net effect of NFKD, removal of combining marks and
NFKC on the Latin-1 accented letters (the range this model covers). -/
def foldChar (c : Char) : Char :=
  if c = 'á' || c = 'à' || c = 'â' || c = 'ä' || c = 'ã' || c = 'å' then 'a'
  else if c = 'é' || c = 'è' || c = 'ê' || c = 'ë' then 'e'
  else if c = 'í' || c = 'ì' || c = 'î' || c = 'ï' then 'i'
  else if c = 'ó' || c = 'ò' || c = 'ô' || c = 'ö' || c = 'õ' then 'o'
  else if c = 'ú' || c = 'ù' || c = 'û' || c = 'ü' then 'u'
  else if c = 'ý' || c = 'ÿ' then 'y'
  else if c = 'ç' then 'c'
  else if c = 'ñ' then 'n'
  else if c = 'Á' || c = 'À' || c = 'Â' || c = 'Ä' || c = 'Ã' || c = 'Å' then 'A'
  else if c = 'É' || c = 'È' || c = 'Ê' || c = 'Ë' then 'E'
  else if c = 'Í' || c = 'Ì' || c = 'Î' || c = 'Ï' then 'I'
  else if c = 'Ó' || c = 'Ò' || c = 'Ô' || c = 'Ö' || c = 'Õ' then 'O'
  else if c = 'Ú' || c = 'Ù' || c = 'Û' || c = 'Ü' then 'U'
  else if c = 'Ý' then 'Y'
  else if c = 'Ç' then 'C'
  else if c = 'Ñ' then 'N'
  else c

/-- Unicode "format" (Cf) characters removed by `_normalize_key_cell`
(zero-width space/joiners, BOM, soft hyphen, word joiner, directional marks). -/
def isFormatChar (c : Char) : Bool :=
  c = '​' || c = '‌' || c = '‍' || c = '‎' || c = '‏' ||
  c = '﻿' || c = '­' || c = '⁠'

/-- The `unicodedata` section of `_normalize_key_cell` as a per-character fold. -/
def unicodeFoldL (l : List Char) : List Char :=
  (l.map foldChar).filter (fun c => !isFormatChar c)

/-- Python `str.split()` (split on whitespace runs, discarding empties). -/
def splitWSAux : List Char → List Char → List (List Char)
  | [], acc => if acc = [] then [] else [acc.reverse]
  | c :: cs, acc =>
    if isPyWS c then
      if acc = [] then splitWSAux cs [] else acc.reverse :: splitWSAux cs []
    else splitWSAux cs (c :: acc)

def splitWSL (l : List Char) : List (List Char) :=
  splitWSAux l []

/-- `" ".join(words)`. -/
def joinSpace : List (List Char) → List Char
  | [] => []
  | [w] => w
  | w :: ws => w ++ ' ' :: joinSpace ws

/-- `" ".join(s.split())`: collapse whitespace runs and trim. -/
def collapseWS (l : List Char) : List Char :=
  joinSpace (splitWSL l)

/-- `_normalize_key_cell` on a character list: NBSP/tab/CR/LF → space,
unicode fold, collapse whitespace. -/
def normKeyL (l : List Char) : List Char :=
  collapseWS (unicodeFoldL (l.map wsToSpace))

/-- `_normalize_key_cell(value)`. -/
def normKey (s : String) : String :=
  ⟨normKeyL s.data⟩

/-- Python `str.lower()` (ASCII range; accents are already folded away by the
time the engine lower-cases anything). -/
def lowerL (l : List Char) : List Char :=
  l.map Char.toLower

def lowerStr (s : String) : String :=
  ⟨lowerL s.data⟩

/-- Python `ch.isalnum()` restricted to the ASCII alphanumerics this model
covers. -/
def isAlnumChar (c : Char) : Bool :=
  c.isAlpha || c.isDigit

/-- Python `s.split(":")` (keeps empty fields). -/
def splitColonAux : List Char → List Char → List (List Char)
  | [], acc => [acc.reverse]
  | c :: cs, acc =>
    if c = ':' then acc.reverse :: splitColonAux cs []
    else splitColonAux cs (c :: acc)

def splitColonL (l : List Char) : List (List Char) :=
  splitColonAux l []

/-! ### Python `int(...)` and `str(int)` -/

def digitVal (c : Char) : Nat := c.toNat - '0'.toNat

/-- Tail of a CPython integer-literal digit run: digits with single
underscores allowed between digits. -/
def digTail : List Char → Nat → Option Nat
  | [], acc => some acc
  | c :: cs, acc =>
    if c.isDigit then digTail cs (acc * 10 + digitVal c)
    else if c = '_' then
      match cs with
      | [] => none
      | d :: ds => if d.isDigit then digTail ds (acc * 10 + digitVal d) else none
    else none

/-- A full digit run (must start with a digit). -/
def digRun : List Char → Option Nat
  | [] => none
  | c :: cs => if c.isDigit then digTail cs (digitVal c) else none

/-- Sign handling of `int(...)` after the whitespace strip. -/
def pyIntL : List Char → Option Int
  | '+' :: r => (digRun r).map (fun n => (n : Int))
  | '-' :: r => (digRun r).map (fun n => -(n : Int))
  | r => (digRun r).map (fun n => (n : Int))

/-- Python `int(s)` for decimal text: strip whitespace, optional sign,
ASCII digit run with underscore separators.  (Non-ASCII decimal digits are
outside this model.) -/
def pyInt? (s : String) : Option Int :=
  pyIntL (pyStripL s.data)

def digitChar : Nat → Char
  | 0 => '0' | 1 => '1' | 2 => '2' | 3 => '3' | 4 => '4'
  | 5 => '5' | 6 => '6' | 7 => '7' | 8 => '8' | _ => '9'

/-- Decimal rendering, fuel-indexed so that it is structurally recursive
(the fuel-0 arm is unreachable once `n ≤ fuel`). -/
def natStrGo : Nat → Nat → List Char
  | 0, n => [digitChar n]
  | fuel + 1, n =>
    if n < 10 then [digitChar n]
    else natStrGo fuel (n / 10) ++ [digitChar (n % 10)]

/-- Decimal rendering of a natural number (no sign, no padding). -/
def natStrL (n : Nat) : List Char :=
  natStrGo n n

/-- Python `str(i)` for an integer. -/
def intStr (i : Int) : String :=
  if i < 0 then ⟨'-' :: natStrL i.natAbs⟩ else ⟨natStrL i.toNat⟩

/-! ### Python `float(...)` and `"%f"` formatting, over exact rationals -/

/-- Greedily consume a digit run with underscore separators, returning the
value, the number of digits consumed and the rest of the input. -/
def digRunCountAux : List Char → Nat → Nat → (Nat × Nat × List Char)
  | [], v, n => (v, n, [])
  | c :: cs, v, n =>
    if c.isDigit then digRunCountAux cs (v * 10 + digitVal c) (n + 1)
    else if c = '_' then
      match cs with
      | [] => (v, n, ['_'])
      | d :: ds =>
        if d.isDigit then digRunCountAux ds (v * 10 + digitVal d) (n + 1)
        else (v, n, '_' :: d :: ds)
    else (v, n, c :: cs)

/-- An exact decimal value `num / 10 ^ exp`, kept unnormalized so every
operation below is plain integer arithmetic the kernel can evaluate. -/
structure Dec where
  num : Int
  exp : Nat
  deriving DecidableEq, Repr

/-- The rational value of a `Dec`. -/
def Dec.val (d : Dec) : ℚ := (d.num : ℚ) / 10 ^ d.exp

/-- Parse the mantissa `digits[.digits]` / `.digits`, returning its exact
decimal value and the unconsumed rest. -/
def parseMantissa (t : List Char) : Option (Dec × List Char) :=
  match t with
  | c :: _ =>
    if c.isDigit then
      let (iv, _, r1) := digRunCountAux t 0 0
      match r1 with
      | '.' :: r2 =>
        (match r2 with
         | d :: _ =>
           if d.isDigit then
             let (fv, nf, r3) := digRunCountAux r2 0 0
             some (⟨(iv * 10 ^ nf + fv : Nat), nf⟩, r3)
           else some (⟨(iv : Nat), 0⟩, r2)
         | [] => some (⟨(iv : Nat), 0⟩, []))
      | _ => some (⟨(iv : Nat), 0⟩, r1)
    else if c = '.' then
      match t with
      | _ :: r2 =>
        (match r2 with
         | d :: _ =>
           if d.isDigit then
             let (fv, nf, r3) := digRunCountAux r2 0 0
             some (⟨(fv : Nat), nf⟩, r3)
           else none
         | [] => none)
      | [] => none
    else none
  | [] => none

/-- Apply an exponent `10 ^ e` (with sign) to a decimal. -/
def Dec.scale (d : Dec) (pos : Bool) (e : Nat) : Dec :=
  if pos then ⟨d.num * 10 ^ e, d.exp⟩ else ⟨d.num, d.exp + e⟩

/-- Python `float(s)` for finite decimal notation, as an exact decimal.
`inf`/`nan` spellings are not modelled (CPython would later crash on
`round(inf)` inside `_normalize_bpm`); they parse as `none`, i.e. the cell is
treated as non-numeric. -/
def pyFloat? (s : String) : Option Dec :=
  let t := pyStripL s.data
  let (neg, t1) : Bool × List Char :=
    match t with
    | '+' :: r => (false, r)
    | '-' :: r => (true, r)
    | r => (false, r)
  match parseMantissa t1 with
  | none => none
  | some (m, rest) =>
    let signed : Dec → Dec := fun d => if neg then ⟨-d.num, d.exp⟩ else d
    match rest with
    | [] => some (signed m)
    | 'e' :: r4 =>
      (match r4 with
       | '+' :: r5 => (digRun r5).map (fun e => signed (m.scale true e))
       | '-' :: r5 => (digRun r5).map (fun e => signed (m.scale false e))
       | r5 => (digRun r5).map (fun e => signed (m.scale true e)))
    | 'E' :: r4 =>
      (match r4 with
       | '+' :: r5 => (digRun r5).map (fun e => signed (m.scale true e))
       | '-' :: r5 => (digRun r5).map (fun e => signed (m.scale false e))
       | r5 => (digRun r5).map (fun e => signed (m.scale true e)))
    | _ => none

/-- `round(f)`: the nearest integer, `⌊f + 1/2⌋`.  (Python rounds exact
halves to even; an exact half is at distance 1/2 from both integers, so the
`1e-9` guard below rejects it under either convention and the difference is
unobservable here.) -/
def Dec.nearest (d : Dec) : Int :=
  Int.fdiv (2 * d.num + 10 ^ d.exp) (2 * 10 ^ d.exp)

/-- `abs(f - round(f)) < 1e-9`, cleared of denominators. -/
def Dec.nearInt (d : Dec) : Bool :=
  (d.num - d.nearest * 10 ^ d.exp).natAbs * 1000000000 < 10 ^ d.exp

/-- Drop trailing `'0'` characters (Python `str.rstrip("0")`). -/
def dropTrailZeros (l : List Char) : List Char :=
  (l.reverse.dropWhile (fun c => c = '0')).reverse

/-- `("%f" % f).rstrip("0").rstrip(".")`: fixed-point with 6 decimals, then
trailing zeros and a trailing point removed.  Rounding of the 7th decimal is
half-up here; C rounds the underlying double half-even, which differs only on
exact decimal ties that no claim exercises. -/
def fmt6 (d : Dec) : String :=
  let m : Nat := (2 * d.num.natAbs * 1000000 + 10 ^ d.exp) / (2 * 10 ^ d.exp)
  let ip := m / 1000000
  let fp := m % 1000000
  let digs := natStrL fp
  let frac := dropTrailZeros (List.replicate (6 - digs.length) '0' ++ digs)
  let core := natStrL ip ++ (if frac = [] then [] else '.' :: frac)
  if d.num < 0 then ⟨'-' :: core⟩ else ⟨core⟩

/-- `_normalize_bpm(value)`. -/
def normalize_bpm (value : String) : String :=
  let s := normKey value
  if s = "" then ""
  else
    match pyFloat? s with
    | none => s
    | some f =>
      if f.nearInt then intStr f.nearest
      else fmt6 f

/-! ### `_normalize_length` -/

/-- `f"{n:02d}"` for the 0..59 values that reach it. -/
def pad2 (n : Int) : String :=
  if n < 10 then "0" ++ intStr n else intStr n

/-- `int(x) if x else 0` on one time part (the empty case is unreachable after
the non-empty filter but is kept to mirror the source). -/
def lenPartVal (p : List Char) : Option Int :=
  if p = [] then some 0 else pyInt? ⟨p⟩

/-- The sanity checks and canonical rendering at the end of
`_normalize_length`. -/
def timeCheckRender (h m sec : Int) (s : String) : String :=
  if h < 0 || m < 0 || sec < 0 || sec ≥ 60 || m ≥ 60 then s
  else if h = 0 then intStr m ++ ":" ++ pad2 sec
  else intStr h ++ ":" ++ pad2 m ++ ":" ++ pad2 sec

/-- `_normalize_length(value)`. -/
def normalize_length (value : String) : String :=
  let s := normKey value
  if s = "" then ""
  else
    let parts := ((splitColonL s.data).map pyStripL).filter (fun p => p ≠ [])
    match parts with
    | [mm, ss] =>
      (match lenPartVal mm, lenPartVal ss with
       | some m, some sec => timeCheckRender 0 m sec s
       | _, _ => s)
    | [hh, mm, ss] =>
      (match lenPartVal hh, lenPartVal mm, lenPartVal ss with
       | some h, some m, some sec => timeCheckRender h m sec s
       | _, _, _ => s)
    | _ => s

/-! ### Column lookup -/

def keyLowerL (l : List Char) : List Char :=
  lowerL (normKeyL l)

/-- `_find_column_index_ci(header, target)`: first index whose
`_normalize_key_cell(...).lower()` matches the target's. -/
def find_column_index_ci : List String → String → Option Nat
  | [], _ => none
  | h :: hs, t =>
    if keyLowerL h.data = keyLowerL t.data then some 0
    else (find_column_index_ci hs t).map (· + 1)

/-! ### The deduplication engine -/

abbrev Row := List String
abbrev Key := List String

/-- The per-sheet indices resolved by `deduplicate_summary` before the row
scan. -/
structure Ctx where
  hlen : Nat
  countIndex : Nat
  titleIndex : Option Nat
  lengthIndex : Option Nat
  bpmIndex : Option Nat
  ois : List Nat
  deriving DecidableEq, Repr

/-- `_norm_optional(col_i, cell)`. -/
def normOpt (ctx : Ctx) (i : Nat) (cell : String) : String :=
  let s := normKey cell
  if s = "" then ""
  else if ctx.lengthIndex = some i then normalize_length s
  else if ctx.bpmIndex = some i then normalize_bpm s
  else s

/-- One fragment of the identity key: `_normalize_key_cell(cell)` with the
title column additionally stripped to alphanumerics, then lower-cased. -/
def keyCell (ctx : Ctx) (i : Nat) (cell : String) : String :=
  let norm := normKey cell
  let norm :=
    if ctx.titleIndex = some i then (⟨norm.data.filter isAlnumChar⟩ : String)
    else norm
  lowerStr norm

/-- The identity-key loop over `enumerate(row)` from column `j` on: skip the
Count column and the optional columns, keep every other column's fragment. -/
def identityKeyFrom (ctx : Ctx) : Nat → Row → Key
  | _, [] => []
  | j, cell :: rest =>
    if j = ctx.countIndex then identityKeyFrom ctx (j + 1) rest
    else if j ∈ ctx.ois then identityKeyFrom ctx (j + 1) rest
    else keyCell ctx j cell :: identityKeyFrom ctx (j + 1) rest

/-- The identity key of a row: every column except the Count column and the
optional columns, in column order. -/
def identityKey (ctx : Ctx) (row : Row) : Key :=
  identityKeyFrom ctx 0 row

/-- The normalized optional-field profile of a row
(`{i: _norm_optional(i, row[i]) for i in optional_indices}`). -/
def profileOf (ctx : Ctx) (row : Row) : List (Nat × String) :=
  ctx.ois.map fun i => (i, normOpt ctx i (row.getD i ""))

/-- Dict read with default `""` (first matching key). -/
def pget : List (Nat × String) → Nat → String
  | [], _ => ""
  | (k, w) :: t, i => if k = i then w else pget t i

/-- Dict write. -/
def pset : List (Nat × String) → Nat → String → List (Nat × String)
  | [], _, _ => []
  | (k, w) :: t, i, v => (if k = i then (k, v) else (k, w)) :: pset t i v

/-- The compatibility scan: incompatible iff some optional column is non-empty
on both sides with different normalized values. -/
def compatible (ois : List Nat) (a b : List (Nat × String)) : Bool :=
  ois.all fun i => pget a i = "" || pget b i = "" || pget a i = pget b i

/-- One merge entry: the template row, the running count and the normalized
optional profile. -/
structure Entry where
  row : Row
  count : Int
  opt : List (Nat × String)
  deriving DecidableEq, Repr

/-- One step of the back-fill loop: when the entry's normalized value for
column `i` is empty and the incoming one is not, record the incoming
normalized value and (bounds permitting) copy the incoming row's original
text into the template. -/
def backfillStep (row : Row) (prof : List (Nat × String)) (acc : Entry) (i : Nat) : Entry :=
  if pget acc.opt i = "" && pget prof i ≠ "" then
    { acc with
      opt := pset acc.opt i (pget prof i),
      row :=
        if i < acc.row.length && i < row.length then acc.row.set i (row.getD i "")
        else acc.row }
  else acc

/-- Merging an incoming row into a matched entry: add the counts, rewrite the
Count cell, and back-fill empty optional values (the template keeps the
incoming row's original post-strip text). -/
def mergeInto (ctx : Ctx) (e : Entry) (row : Row) (cnt : Int)
    (prof : List (Nat × String)) : Entry :=
  let c := e.count + cnt
  let start : Entry := { row := e.row.set ctx.countIndex (intStr c), count := c, opt := e.opt }
  ctx.ois.foldl (backfillStep row prof) start

/-- A fresh entry from a row (`template_row = row.copy()` with the Count cell
rewritten as text). -/
def newEntry (ctx : Ctx) (row : Row) (cnt : Int) (prof : List (Nat × String)) : Entry :=
  { row := row.set ctx.countIndex (intStr cnt), count := cnt, opt := prof }

/-- Scan the entry list in insertion order for the first compatible entry;
merge into it, or append a fresh entry at the end. -/
def absorb (ctx : Ctx) (row : Row) (cnt : Int) (prof : List (Nat × String)) :
    List Entry → List Entry
  | [] => [newEntry ctx row cnt prof]
  | e :: es =>
    if compatible ctx.ois e.opt prof then mergeInto ctx e row cnt prof :: es
    else e :: absorb ctx row cnt prof es

/-- The identity-key grouping map, as an insertion-ordered association list
(Python dict iteration order). -/
abbrev Groups := List (Key × List Entry)

/-- `identity_to_entries.setdefault(key, [])` followed by the scan/merge
(polymorphic in the entry type so the source-row-counting variant below can
share it). -/
def gupdate {ε : Type} (k : Key) (f : List ε → List ε) :
    List (Key × List ε) → List (Key × List ε)
  | [] => [(k, f [])]
  | (k', es) :: rest =>
    if k' = k then (k', f es) :: rest else (k', es) :: gupdate k f rest

/-- The parsed count of a row (`int(_strip_cell_value(row[count_index]))`,
parse failure → 0). -/
def rowCount (ctx : Ctx) (row : Row) : Int :=
  (pyInt? (stripCell (row.getD ctx.countIndex ""))).getD 0

/-- Process one data row of the scan loop. -/
def processRow (ctx : Ctx) (gs : Groups) (row : Row) : Groups :=
  gupdate (identityKey ctx row) (absorb ctx row (rowCount ctx row) (profileOf ctx row)) gs

/-- The whole scan over the data rows. -/
def dedupEntries (ctx : Ctx) (rows : List Row) : Groups :=
  rows.foldl (processRow ctx) []

/-- Ensure a Count column exists; when absent, append `"Count"` to the header
and `"1"` to every row, and record its index. -/
def ensureCount (header : Row) (rows : List Row) : Row × List Row × Nat :=
  match find_column_index_ci header "Count" with
  | some i => (header, rows, i)
  | none => (header ++ ["Count"], rows.map (fun r => r ++ ["1"]), header.length)

/-- Row-length normalization: right-pad short rows with `""`, truncate long
rows to the header length. -/
def padTrunc (n : Nat) (row : Row) : Row :=
  if row.length < n then row ++ List.replicate (n - row.length) "" else row.take n

/-- Row preprocessing: length normalization, then `_strip_cell_value` on
every cell. -/
def prepRows (hlen : Nat) (rows : List Row) : List Row :=
  rows.map fun r => (padTrunc hlen r).map stripCell

/-- Index resolution for Title/Length/BPM/Comment/Genre/Year; the present
subset (in the source's order Comment, Genre, Year, Length, BPM) forms the
optional indices. -/
def mkCtx (header : Row) (ci : Nat) : Ctx :=
  let ti := find_column_index_ci header "Title"
  let li := find_column_index_ci header "Length"
  let bi := find_column_index_ci header "BPM"
  let co := find_column_index_ci header "Comment"
  let ge := find_column_index_ci header "Genre"
  let ye := find_column_index_ci header "Year"
  { hlen := header.length, countIndex := ci, titleIndex := ti,
    lengthIndex := li, bpmIndex := bi,
    ois := [co, ge, ye, li, bi].filterMap id }

/-- The emitted data rows: every merge entry's template, grouped by identity
key in first-seen order, within a key in creation order. -/
def outRows (gs : Groups) : List Row :=
  gs.foldr (fun g acc => g.2.map Entry.row ++ acc) []

/-- The per-sheet body of `deduplicate_summary`, as a pure table transformer:
skip tables with fewer than 2 rows, otherwise ensure the Count column,
normalize rows, run the scan and emit header + merged rows. -/
def dedupCore (header : Row) (rows : List Row) : List Row :=
  match ensureCount header rows with
  | (header1, rows1, ci) =>
    let ctx := mkCtx header1 ci
    header1 :: outRows (dedupEntries ctx (prepRows header1.length rows1))

/-- `Deduplicate(table)`: header-only or empty tables are returned unchanged
(the "skip" outcome). -/
def deduplicate_sheet : List Row → List Row
  | [] => []
  | [h] => [h]
  | header :: rows => dedupCore header rows

/-! ### The resilient call executor (`_with_retry`)

The wrapped operation is modelled as a function from the (1-based) attempt
number to that invocation's outcome; `random.uniform(0, cap)` is modelled by
an arbitrary jitter stream, with the support bound `0 ≤ jitter ≤ cap` stated
as a hypothesis where a theorem needs it.  Delays are exact rationals (the
backoff ladder 1.5 · 2^k and the caps are dyadic, so float arithmetic agrees).
-/

/-- What one invocation of the wrapped operation does. -/
inductive CallResult (α : Type) where
  | ok (v : α)
  | httpErr (status : Nat) (retryAfter : Option ℚ)
  | otherErr (tag : Nat)
  deriving DecidableEq, Repr

/-- The exception propagated out of `_with_retry`. -/
inductive PyErr where
  | http (status : Nat) (retryAfter : Option ℚ)
  | other (tag : Nat)
  deriving DecidableEq, Repr

/-- `_is_retryable_http_error`. -/
def isRetryableStatus (s : Nat) : Bool :=
  s = 408 || s = 429 || s = 500 || s = 502 || s = 503 || s = 504

/-- `min(max_delay_s, base_delay_s * (2 ** (attempt - 1)))`. -/
def rawBackoff (base maxD : ℚ) (attempt : Nat) : ℚ :=
  min maxD (base * 2 ^ (attempt - 1))

/-- The backoff after the server-supplied retry-after override
(`backoff = max(backoff, retry_after)`); the raw backoff when the attempt is
not a hinted HTTP failure. -/
def effBackoff {α : Type} (fn : Nat → CallResult α) (base maxD : ℚ) (a : Nat) : ℚ :=
  match fn a with
  | .httpErr _ (some r) => max (rawBackoff base maxD a) r
  | _ => rawBackoff base maxD a

/-- The upper end of the interval `random.uniform` draws from at attempt `a`:
`min(1.0, backoff / 3)` in the HttpError branch, a flat `1.0` in the generic
branch (no jitter is drawn on a successful attempt). -/
def jitterCap {α : Type} (fn : Nat → CallResult α) (base maxD : ℚ) (a : Nat) : ℚ :=
  match fn a with
  | .httpErr _ _ => min 1 (effBackoff fn base maxD a / 3)
  | .otherErr _ => 1
  | .ok _ => 0

/-- The jitter stream is within `random.uniform`'s support at every attempt. -/
def validJitter {α : Type} (fn : Nat → CallResult α) (jitter : Nat → ℚ)
    (base maxD : ℚ) : Prop :=
  ∀ a, 0 ≤ jitter a ∧ jitter a ≤ jitterCap fn base maxD a

/-- The sleep the loop performs after a failing attempt `a` (when one is
performed at all): hinted backoff plus jitter in the HttpError branch, raw
backoff plus jitter in the generic branch. -/
def sleepAt {α : Type} (fn : Nat → CallResult α) (jitter : Nat → ℚ)
    (base maxD : ℚ) (a : Nat) : ℚ :=
  match fn a with
  | .httpErr _ _ => effBackoff fn base maxD a + jitter a
  | _ => rawBackoff base maxD a + jitter a

/-- The observable outcome of a `_with_retry` call: the returned value or the
propagated error (`Except.ok none` is the implicit `None` return when the
attempt loop never runs), the number of invocations, and the sleeps performed
between attempts in order. -/
structure RetryRun (α : Type) where
  result : Except PyErr (Option α)
  calls : Nat
  sleeps : List ℚ
  deriving Repr

/-- The attempt loop of `_with_retry`: `attempt` is the 1-based counter and
`fuel` the number of attempts left (`attempt + fuel = max_attempts + 1`). -/
def withRetryGo {α : Type} (fn : Nat → CallResult α) (jitter : Nat → ℚ)
    (maxAttempts : Nat) (base maxD : ℚ) :
    Nat → Nat → List ℚ → RetryRun α
  | attempt, 0, sleeps => ⟨Except.ok none, attempt - 1, sleeps⟩
  | attempt, fuel + 1, sleeps =>
    match fn attempt with
    | .ok v => ⟨Except.ok (some v), attempt, sleeps⟩
    | .httpErr s ra =>
      if !isRetryableStatus s || attempt = maxAttempts then
        ⟨Except.error (.http s ra), attempt, sleeps⟩
      else
        withRetryGo fn jitter maxAttempts base maxD (attempt + 1) fuel
          (sleeps ++ [effBackoff fn base maxD attempt + jitter attempt])
    | .otherErr t =>
      if attempt = maxAttempts then ⟨Except.error (.other t), attempt, sleeps⟩
      else
        withRetryGo fn jitter maxAttempts base maxD (attempt + 1) fuel
          (sleeps ++ [rawBackoff base maxD attempt + jitter attempt])

/-- `_with_retry(fn, desc, max_attempts, base_delay_s, max_delay_s)`. -/
def with_retry {α : Type} (fn : Nat → CallResult α) (jitter : Nat → ℚ)
    (maxAttempts : Nat) (base maxD : ℚ) : RetryRun α :=
  withRetryGo fn jitter maxAttempts base maxD 1 maxAttempts []

/-- The default options: `max_attempts=8`, `base_delay_s=1.5`,
`max_delay_s=90.0`. -/
def withRetryDefault {α : Type} (fn : Nat → CallResult α) (jitter : Nat → ℚ) : RetryRun α :=
  with_retry fn jitter 8 (3 / 2) 90

/-! ### Source-row bookkeeping (ghost instrumentation)

The scan with each entry additionally carrying the number of source rows it
has absorbed.  This is the same fold as `dedupEntries` with a ghost counter;
the projection lemma below shows it computes the same groups. -/

/-- A merge entry together with the number of source rows it represents. -/
structure EntryI where
  e : Entry
  srcs : Nat
  deriving DecidableEq, Repr

abbrev GroupsI := List (Key × List EntryI)

def absorbI (ctx : Ctx) (row : Row) (cnt : Int) (prof : List (Nat × String)) :
    List EntryI → List EntryI
  | [] => [⟨newEntry ctx row cnt prof, 1⟩]
  | x :: xs =>
    if compatible ctx.ois x.e.opt prof then ⟨mergeInto ctx x.e row cnt prof, x.srcs + 1⟩ :: xs
    else x :: absorbI ctx row cnt prof xs

def processRowI (ctx : Ctx) (gs : GroupsI) (row : Row) : GroupsI :=
  gupdate (identityKey ctx row) (absorbI ctx row (rowCount ctx row) (profileOf ctx row)) gs

def dedupEntriesI (ctx : Ctx) (rows : List Row) : GroupsI :=
  rows.foldl (processRowI ctx) []

/-- Forget the ghost counters. -/
def forgetI (gs : GroupsI) : Groups :=
  gs.map fun g => (g.1, g.2.map EntryI.e)

/-! ### Spec-side definitions for the claims

These follow the specification's wording (not the source) and exist to be
compared with the source-derived functions above. -/

/-- The data rows of a table (everything after the header). -/
def dataRows : List Row → List Row
  | [] => []
  | _ :: rs => rs

/-- Sum of the parsed Count cells of a row list at column `ci`, an
unparsable cell counting as 0. -/
def countCellSum (ci : Nat) (rows : List Row) : Int :=
  (rows.map fun r => (pyInt? (stripCell (r.getD ci ""))).getD 0).sum

/-- Modelled from the spec (claim C3): the sum of Count over the
Count-completed input data rows — the parsed Count cells when the header has
a Count column, otherwise 1 per data row. -/
def claimInputSum (t : List Row) : Int :=
  match t with
  | [] => 0
  | header :: rows =>
    match find_column_index_ci header "Count" with
    | some i => countCellSum i rows
    | none => (rows.length : Int)

/-- The sum of the Count cells over a table's data rows (0 when the header
has no Count column, which never happens for engine output). -/
def outputCountSum (t : List Row) : Int :=
  match t with
  | [] => 0
  | header :: rows =>
    match find_column_index_ci header "Count" with
    | some i => countCellSum i rows
    | none => 0

/-- The stripped non-empty colon parts `_normalize_length` actually works
on. -/
def nonEmptyParts (value : String) : List (List Char) :=
  ((splitColonL (normKeyL value.data)).map pyStripL).filter (fun p => p ≠ [])

/-- The bounds check of the length claim: all parts non-negative,
seconds < 60, minutes < 60. -/
def timeOK (h m sec : Int) : Bool :=
  0 ≤ h && 0 ≤ m && 0 ≤ sec && sec < 60 && m < 60

/-- Canonical rendering: `M:SS` when hours = 0, else `H:MM:SS`,
minutes/seconds zero-padded to two digits, hours unpadded. -/
def renderHMS (h m sec : Int) : String :=
  if h = 0 then intStr m ++ ":" ++ pad2 sec
  else intStr h ++ ":" ++ pad2 m ++ ":" ++ pad2 sec

/-- Parse every element of a list, failing if any element fails. -/
def mapOpt {α β : Type} (f : α → Option β) : List α → Option (List β)
  | [] => some []
  | a :: l =>
    match f a, mapOpt f l with
    | some b, some r => some (b :: r)
    | _, _ => none

/-- Modelled from the spec (claim C6, as stated): split on colons keeping
empty parts (an empty part means 0), reject when the raw part count is not
2 or 3, a part fails to parse as an integer, any value is negative,
seconds ≥ 60 or minutes ≥ 60; otherwise canonicalize. -/
def normalizeLengthClaim (value : String) : String :=
  let s := normKey value
  if s = "" then ""
  else
    let parts := (splitColonL s.data).map pyStripL
    match mapOpt lenPartVal parts with
    | some [m, sec] => if timeOK 0 m sec then renderHMS 0 m sec else s
    | some [h, m, sec] => if timeOK h m sec then renderHMS h m sec else s
    | _ => s

/-- The amended description of `_normalize_length`: empty parts are dropped
before counting, acceptance requires exactly 2 or 3 non-empty parts, each
parsing as an integer, with the same bounds and rendering. -/
def normalizeLengthAmended (value : String) : String :=
  let s := normKey value
  if s = "" then ""
  else
    match mapOpt (fun p => pyInt? ⟨p⟩) (nonEmptyParts value) with
    | some [m, sec] => if timeOK 0 m sec then renderHMS 0 m sec else s
    | some [h, m, sec] => if timeOK h m sec then renderHMS h m sec else s
    | _ => s

/-! ### Invariants of the scan state, and statement helpers -/

/-- The index facts `deduplicate_summary` guarantees before the scan:
the Count index is in header range and distinct from every optional index,
and every optional index is in header range. -/
def CtxOK (ctx : Ctx) : Prop :=
  ctx.countIndex < ctx.hlen ∧ ctx.countIndex ∉ ctx.ois ∧ ∀ i ∈ ctx.ois, i < ctx.hlen

/-- A preprocessed data row: header length, all cells fixed by
`_strip_cell_value`. -/
def RowOK (ctx : Ctx) (row : Row) : Prop :=
  row.length = ctx.hlen ∧ ∀ c ∈ row, stripCell c = c

/-- The invariant of one merge entry: its template is a well-formed row, the
Count cell is the rendering of the running count, and the stored profile is
exactly the profile its template would produce. -/
def EntryOK (ctx : Ctx) (e : Entry) : Prop :=
  RowOK ctx e.row ∧
  e.row.getD ctx.countIndex "" = intStr e.count ∧
  e.opt = profileOf ctx e.row

/-- The invariant of one identity-key group: non-empty, every entry
well-formed with this identity key, and pairwise incompatible profiles. -/
def GroupOK (ctx : Ctx) (k : Key) (es : List Entry) : Prop :=
  es ≠ [] ∧
  (∀ e ∈ es, EntryOK ctx e ∧ identityKey ctx e.row = k) ∧
  es.Pairwise (fun a b => compatible ctx.ois a.opt b.opt = false)

/-- The invariant of the whole grouping map. -/
def GroupsOK (ctx : Ctx) (gs : Groups) : Prop :=
  (gs.map Prod.fst).Nodup ∧ ∀ g ∈ gs, GroupOK ctx g.1 g.2

/-- The entry list currently recorded under an identity key. -/
def entriesAt (k : Key) : Groups → List Entry
  | [] => []
  | (k0, es) :: rest => if k0 = k then es else entriesAt k rest

def entryCountSum (es : List Entry) : Int :=
  (es.map Entry.count).sum

def groupsCountSum (gs : Groups) : Int :=
  (gs.map (fun g => entryCountSum g.2)).sum

def rowCountSum (ctx : Ctx) (rows : List Row) : Int :=
  (rows.map (rowCount ctx)).sum

/-- Statement helpers naming the intermediate stages of `dedupCore`. -/
def headerOut (header : Row) (rows : List Row) : Row :=
  (ensureCount header rows).1

def rowsEnsured (header : Row) (rows : List Row) : List Row :=
  (ensureCount header rows).2.1

def ciOf (header : Row) (rows : List Row) : Nat :=
  (ensureCount header rows).2.2

def ctxOf (header : Row) (rows : List Row) : Ctx :=
  mkCtx (headerOut header rows) (ciOf header rows)

def prepOf (header : Row) (rows : List Row) : List Row :=
  prepRows (headerOut header rows).length (rowsEnsured header rows)

/-! ## Basic lemmas -/

theorem foldl_inv {γ β : Type} {P : γ → Prop} {f : γ → β → γ} :
    ∀ (l : List β) (a : γ), P a → (∀ x b, b ∈ l → P x → P (f x b)) →
      P (l.foldl f a) := by
  intro l
  induction l with
  | nil => intro a h _; exact h
  | cons b t ih =>
    intro a h hf
    exact ih (f a b) (hf a b (List.mem_cons_self b t) h)
      (fun x b2 hb2 hx => hf x b2 (List.mem_cons_of_mem b hb2) hx)

theorem getD_set_self : ∀ (l : List String) (i : Nat) (v : String),
    i < l.length → (l.set i v).getD i "" = v := by
  intro l
  induction l with
  | nil => intro i v h; simp at h
  | cons a t ih =>
    intro i v h
    cases i with
    | zero => rfl
    | succ j => exact ih j v (by simpa using h)

theorem getD_set_ne : ∀ (l : List String) (i j : Nat) (v : String),
    j ≠ i → (l.set i v).getD j "" = l.getD j "" := by
  intro l
  induction l with
  | nil => intro i j v _; rfl
  | cons a t ih =>
    intro i j v h
    cases i with
    | zero =>
      cases j with
      | zero => exact absurd rfl h
      | succ m => rfl
    | succ k =>
      cases j with
      | zero => rfl
      | succ m => exact ih k m v (by omega)

theorem set_getD_self : ∀ (l : List String) (i : Nat),
    i < l.length → l.set i (l.getD i "") = l := by
  intro l
  induction l with
  | nil => intro i h; simp at h
  | cons a t ih =>
    intro i h
    cases i with
    | zero => rfl
    | succ j => simpa using ih j (by simpa using h)

theorem mem_of_getD : ∀ (l : List String) (i : Nat),
    i < l.length → l.getD i "" ∈ l := by
  intro l
  induction l with
  | nil => intro i h; simp at h
  | cons a t ih =>
    intro i h
    cases i with
    | zero => exact List.mem_cons_self a t
    | succ j => exact List.mem_cons_of_mem a (ih j (by simpa using h))

theorem mem_of_mem_set : ∀ (l : List String) (i : Nat) (v c : String),
    c ∈ l.set i v → c ∈ l ∨ c = v := by
  intro l
  induction l with
  | nil => intro i v c h; simp at h
  | cons a t ih =>
    intro i v c h
    cases i with
    | zero =>
      rcases List.mem_cons.mp h with h1 | h1
      · exact Or.inr h1
      · exact Or.inl (List.mem_cons_of_mem a h1)
    | succ j =>
      rcases List.mem_cons.mp h with h1 | h1
      · exact Or.inl (h1 ▸ List.mem_cons_self a t)
      · rcases ih j v c h1 with h2 | h2
        · exact Or.inl (List.mem_cons_of_mem a h2)
        · exact Or.inr h2

theorem getD_map : ∀ (l : List String) (f : String → String) (i : Nat),
    i < l.length → (l.map f).getD i "" = f (l.getD i "") := by
  intro l
  induction l with
  | nil => intro f i h; simp at h
  | cons a t ih =>
    intro f i h
    cases i with
    | zero => rfl
    | succ j => exact ih f j (by simpa using h)

theorem getD_append_left : ∀ (l m : List String) (i : Nat),
    i < l.length → (l ++ m).getD i "" = l.getD i "" := by
  intro l
  induction l with
  | nil => intro m i h; simp at h
  | cons a t ih =>
    intro m i h
    cases i with
    | zero => rfl
    | succ j => exact ih m j (by simpa using h)

theorem map_eq_self_of_mem {α : Type} (f : α → α) :
    ∀ (l : List α), (∀ c ∈ l, f c = c) → l.map f = l := by
  intro l
  induction l with
  | nil => intro _; rfl
  | cons a t ih =>
    intro h
    simp only [List.map_cons]
    rw [h a (List.mem_cons_self a t), ih (fun c hc => h c (List.mem_cons_of_mem a hc))]

/-! ### Strip lemmas -/

theorem dropLeadWS_cons_of_not {c : Char} {cs : List Char} (h : isPyWS c = false) :
    dropLeadWS (c :: cs) = c :: cs := by
  simp [dropLeadWS, h]

theorem dropLeadWS_eq_of_all : ∀ (l : List Char),
    (∀ c ∈ l, isPyWS c = false) → dropLeadWS l = l := by
  intro l h
  cases l with
  | nil => rfl
  | cons c cs => exact dropLeadWS_cons_of_not (h c (List.mem_cons_self c cs))

theorem dropLeadWS_mem : ∀ (l : List Char) (c : Char),
    c ∈ dropLeadWS l → c ∈ l := by
  intro l
  induction l with
  | nil => intro c h; simp [dropLeadWS] at h
  | cons a t ih =>
    intro c h
    by_cases hw : isPyWS a
    · simp only [dropLeadWS, hw, if_true] at h
      exact List.mem_cons_of_mem a (ih c h)
    · rw [dropLeadWS_cons_of_not (by simpa using hw)] at h
      exact h

theorem dropLeadWS_idem : ∀ (l : List Char),
    dropLeadWS (dropLeadWS l) = dropLeadWS l := by
  intro l
  induction l with
  | nil => rfl
  | cons a t ih =>
    by_cases hw : isPyWS a
    · simp only [dropLeadWS, hw, if_true]; exact ih
    · rw [dropLeadWS_cons_of_not (by simpa using hw),
        dropLeadWS_cons_of_not (by simpa using hw)]

theorem dropLeadWS_head : ∀ (l : List Char) (c : Char) (t : List Char),
    dropLeadWS l = c :: t → isPyWS c = false := by
  intro l
  induction l with
  | nil => intro c t h; simp [dropLeadWS] at h
  | cons a s ih =>
    intro c t h
    by_cases hw : isPyWS a
    · simp only [dropLeadWS, hw, if_true] at h
      exact ih c t h
    · rw [dropLeadWS_cons_of_not (by simpa using hw)] at h
      cases h
      simpa using hw

theorem dropLeadWS_getLast? : ∀ (l : List Char),
    dropLeadWS l ≠ [] → (dropLeadWS l).getLast? = l.getLast? := by
  intro l
  induction l with
  | nil => intro h; simp [dropLeadWS] at h
  | cons a t ih =>
    intro h
    by_cases hw : isPyWS a
    · simp only [dropLeadWS, hw, if_true] at h ⊢
      rw [ih h]
      cases t with
      | nil => simp [dropLeadWS] at h
      | cons b s => simp [List.getLast?_cons_cons]
    · rw [dropLeadWS_cons_of_not (by simpa using hw)]

theorem pyStripL_eq_of_all (l : List Char) (h : ∀ c ∈ l, isPyWS c = false) :
    pyStripL l = l := by
  unfold pyStripL
  rw [dropLeadWS_eq_of_all l h]
  rw [dropLeadWS_eq_of_all l.reverse (fun c hc => h c (List.mem_reverse.mp hc))]
  exact List.reverse_reverse l

theorem pyStripL_mem (l : List Char) (c : Char) (h : c ∈ pyStripL l) : c ∈ l := by
  unfold pyStripL at h
  have h1 := List.mem_reverse.mp h
  have h2 := dropLeadWS_mem _ _ h1
  have h3 := List.mem_reverse.mp h2
  exact dropLeadWS_mem _ _ h3

theorem pyStripL_idem (l : List Char) : pyStripL (pyStripL l) = pyStripL l := by
  set r := pyStripL l with hr
  have hrRev : r.reverse = dropLeadWS ((dropLeadWS l).reverse) := by
    rw [hr]; unfold pyStripL; exact List.reverse_reverse _
  have hdropRev : dropLeadWS r.reverse = r.reverse := by
    rw [hrRev]; exact dropLeadWS_idem _
  have hdrop : dropLeadWS r = r := by
    cases hc : r with
    | nil => rfl
    | cons c t =>
      have hne : dropLeadWS ((dropLeadWS l).reverse) ≠ [] := by
        rw [← hrRev]
        simp [hc]
      have hlast : (dropLeadWS ((dropLeadWS l).reverse)).getLast? =
          ((dropLeadWS l).reverse).getLast? := dropLeadWS_getLast? _ hne
      have hh : r.head? = ((dropLeadWS l).reverse).getLast? := by
        rw [← hlast, ← hrRev]
        rw [← List.head?_reverse]
        simp
      have hh2 : ((dropLeadWS l).reverse).getLast? = (dropLeadWS l).head? := by
        rw [List.getLast?_reverse]
      cases hd : dropLeadWS l with
      | nil =>
        exfalso
        apply hne
        rw [hd]
        rfl
      | cons c0 t0 =>
        have hcw : isPyWS c0 = false := dropLeadWS_head l c0 t0 hd
        have : r.head? = some c0 := by rw [hh, hh2, hd]; rfl
        rw [hc] at this
        simp at this
        exact dropLeadWS_cons_of_not (by rw [this]; exact hcw)
  show pyStripL r = r
  unfold pyStripL
  rw [hdrop, hdropRev, List.reverse_reverse]

theorem nbspToSpace_idem (c : Char) : nbspToSpace (nbspToSpace c) = nbspToSpace c := by
  unfold nbspToSpace
  split
  · simp
  · next h => simp [h]

theorem stripCellL_idem (l : List Char) : stripCellL (stripCellL l) = stripCellL l := by
  unfold stripCellL
  have h1 : (pyStripL (l.map nbspToSpace)).map nbspToSpace = pyStripL (l.map nbspToSpace) := by
    apply map_eq_self_of_mem
    intro c hc
    have hc2 : c ∈ l.map nbspToSpace := pyStripL_mem _ _ hc
    rcases List.mem_map.mp hc2 with ⟨x, _, rfl⟩
    exact nbspToSpace_idem x
  rw [h1, pyStripL_idem]

theorem data_mk (l : List Char) : (String.mk l).data = l := rfl

theorem mk_data (s : String) : String.mk s.data = s := by cases s; rfl

theorem stripCell_idem (s : String) : stripCell (stripCell s) = stripCell s := by
  unfold stripCell
  rw [data_mk, stripCellL_idem]

theorem stripCell_eq_of_clean (s : String)
    (h : ∀ c ∈ s.data, isPyWS c = false ∧ nbspToSpace c = c) : stripCell s = s := by
  unfold stripCell stripCellL
  rw [map_eq_self_of_mem _ _ (fun c hc => (h c hc).2),
    pyStripL_eq_of_all _ (fun c hc => (h c hc).1), mk_data]

/-! ### Decimal digit lemmas -/

theorem digitChar_isDigit (n : Nat) (h : n < 10) : (digitChar n).isDigit = true := by
  interval_cases n <;> decide

theorem digitVal_digitChar (n : Nat) (h : n < 10) : digitVal (digitChar n) = n := by
  interval_cases n <;> decide

theorem isPyWS_of_isDigit (c : Char) (h : c.isDigit = true) : isPyWS c = false := by
  by_contra hw
  have hw2 : isPyWS c = true := by
    cases hx : isPyWS c
    · exact absurd hx hw
    · rfl
  have hmem : c ∈ pyWSChars := by
    have : pyWSChars.contains c = true := hw2
    simpa using this
  fin_cases hmem <;> simp at h

theorem nbspToSpace_of_isDigit (c : Char) (h : c.isDigit = true) :
    nbspToSpace c = c := by
  unfold nbspToSpace
  split
  · next heq => rw [heq] at h; simp at h
  · rfl

theorem natStrGo_irrel : ∀ (f1 : Nat), ∀ (n : Nat), n ≤ f1 → ∀ (f2 : Nat), n ≤ f2 →
    natStrGo f1 n = natStrGo f2 n := by
  intro f1
  induction f1 with
  | zero =>
    intro n hn f2 _
    have : n = 0 := Nat.le_zero.mp hn
    subst this
    cases f2 with
    | zero => rfl
    | succ g => simp [natStrGo]
  | succ g1 ih =>
    intro n hn f2 hn2
    by_cases h : n < 10
    · cases f2 with
      | zero =>
        have : n = 0 := Nat.le_zero.mp hn2
        subst this
        simp [natStrGo]
      | succ g2 => simp [natStrGo, h]
    · cases f2 with
      | zero => omega
      | succ g2 =>
        simp only [natStrGo, h, if_false]
        have hd : n / 10 ≤ g1 := by
          have := Nat.div_lt_self (by omega : 0 < n) (by omega : 1 < 10)
          omega
        have hd2 : n / 10 ≤ g2 := by
          have := Nat.div_lt_self (by omega : 0 < n) (by omega : 1 < 10)
          omega
        rw [ih (n / 10) hd g2 hd2]

theorem natStrL_lt {n : Nat} (h : n < 10) : natStrL n = [digitChar n] := by
  cases n with
  | zero => rfl
  | succ k => simp [natStrL, natStrGo, h]

theorem natStrL_ge {n : Nat} (h : 10 ≤ n) :
    natStrL n = natStrL (n / 10) ++ [digitChar (n % 10)] := by
  unfold natStrL
  cases hn : n with
  | zero => omega
  | succ k =>
    simp only [natStrGo, show ¬ (k + 1 < 10) by omega, if_false]
    have hd : (k + 1) / 10 ≤ k := by
      have := Nat.div_lt_self (by omega : 0 < k + 1) (by omega : 1 < 10)
      omega
    rw [natStrGo_irrel k ((k+1)/10) hd ((k+1)/10) (le_refl _)]

theorem natStrL_digits : ∀ (n : Nat), ∀ c ∈ natStrL n, c.isDigit = true := by
  intro n
  induction n using Nat.strong_induction_on with
  | _ n ih =>
    by_cases h : n < 10
    · rw [natStrL_lt h]
      intro c hc
      simp at hc
      exact hc ▸ digitChar_isDigit n h
    · rw [natStrL_ge (by omega)]
      intro c hc
      rcases List.mem_append.mp hc with h1 | h1
      · exact ih (n / 10) (Nat.div_lt_self (by omega) (by omega)) c h1
      · simp at h1
        exact h1 ▸ digitChar_isDigit (n % 10) (Nat.mod_lt n (by omega))

theorem natStrL_ne_nil (n : Nat) : natStrL n ≠ [] := by
  by_cases h : n < 10
  · rw [natStrL_lt h]; simp
  · rw [natStrL_ge (by omega)]; simp

theorem digTail_cons_digit {c : Char} (rest : List Char) (acc : Nat)
    (h : c.isDigit = true) :
    digTail (c :: rest) acc = digTail rest (acc * 10 + digitVal c) := by
  conv_lhs => unfold digTail
  simp [h]

theorem digRun_cons_digit {c : Char} (rest : List Char) (h : c.isDigit = true) :
    digRun (c :: rest) = digTail rest (digitVal c) := by
  conv_lhs => unfold digRun
  simp [h]

theorem digRun_natStr_append : ∀ (n : Nat) (rest : List Char),
    digRun (natStrL n ++ rest) = digTail rest n := by
  intro n
  induction n using Nat.strong_induction_on with
  | _ n ih =>
    intro rest
    by_cases h : n < 10
    · rw [natStrL_lt h]
      rw [List.cons_append, List.nil_append, digRun_cons_digit rest (digitChar_isDigit n h),
        digitVal_digitChar n h]
    · rw [natStrL_ge (by omega), List.append_assoc]
      rw [ih (n / 10) (Nat.div_lt_self (by omega) (by omega))]
      rw [List.cons_append, List.nil_append,
        digTail_cons_digit rest (n / 10) (digitChar_isDigit (n % 10) (Nat.mod_lt n (by omega))),
        digitVal_digitChar (n % 10) (Nat.mod_lt n (by omega))]
      congr 1
      omega

theorem digRun_natStrL (n : Nat) : digRun (natStrL n) = some n := by
  have := digRun_natStr_append n []
  rw [List.append_nil] at this
  rw [this]
  rfl

/-! ### `str(int)` / `int(...)` round trip -/

theorem intStr_data (i : Int) :
    (intStr i).data = if i < 0 then '-' :: natStrL i.natAbs else natStrL i.toNat := by
  unfold intStr
  split
  · rfl
  · rfl

theorem intStr_clean (i : Int) :
    ∀ c ∈ (intStr i).data, isPyWS c = false ∧ nbspToSpace c = c := by
  intro c hc
  rw [intStr_data] at hc
  have hdig : c.isDigit = true ∨ c = '-' := by
    split at hc
    · rcases List.mem_cons.mp hc with h | h
      · exact Or.inr h
      · exact Or.inl (natStrL_digits _ c h)
    · exact Or.inl (natStrL_digits _ c hc)
  rcases hdig with h | h
  · exact ⟨isPyWS_of_isDigit c h, nbspToSpace_of_isDigit c h⟩
  · subst h
    exact ⟨by decide, by decide⟩

theorem stripCell_intStr (i : Int) : stripCell (intStr i) = intStr i :=
  stripCell_eq_of_clean _ (intStr_clean i)

theorem pyStripL_intStr (i : Int) : pyStripL (intStr i).data = (intStr i).data :=
  pyStripL_eq_of_all _ (fun c hc => (intStr_clean i c hc).1)

theorem pyIntL_cons_digit {c : Char} (t : List Char) (h : c.isDigit = true) :
    pyIntL (c :: t) = (digRun (c :: t)).map (fun n => (n : Int)) := by
  have h1 : c ≠ '+' := by rintro rfl; simp at h
  have h2 : c ≠ '-' := by rintro rfl; simp at h
  unfold pyIntL
  split
  · next heq => rw [List.cons.injEq] at heq; exact absurd heq.1 h1
  · next heq => rw [List.cons.injEq] at heq; exact absurd heq.1 h2
  · rfl

theorem pyInt_intStr (i : Int) : pyInt? (intStr i) = some i := by
  unfold pyInt?
  rw [pyStripL_intStr]
  by_cases h : i < 0
  · rw [intStr_data, if_pos h]
    show pyIntL ('-' :: natStrL i.natAbs) = some i
    have : pyIntL ('-' :: natStrL i.natAbs) =
        (digRun (natStrL i.natAbs)).map (fun n => -(n : Int)) := rfl
    rw [this, digRun_natStrL]
    show some (-(i.natAbs : Int)) = some i
    congr 1
    omega
  · rw [intStr_data, if_neg h]
    cases hns : natStrL i.toNat with
    | nil => exact absurd hns (natStrL_ne_nil _)
    | cons c t =>
      have hcd : c.isDigit = true := natStrL_digits _ c (hns ▸ List.mem_cons_self c t)
      rw [← hns, show natStrL i.toNat = c :: t from hns]
      rw [pyIntL_cons_digit t hcd, ← hns, digRun_natStrL]
      show some ((i.toNat : Nat) : Int) = some i
      congr 1
      omega

theorem rowCount_of_intStr (ctx : Ctx) (row : Row) (n : Int)
    (h : row.getD ctx.countIndex "" = intStr n) : rowCount ctx row = n := by
  unfold rowCount
  rw [h, stripCell_intStr, pyInt_intStr]
  rfl

/-! ### Row preprocessing lemmas -/

theorem padTrunc_length (n : Nat) (r : Row) : (padTrunc n r).length = n := by
  unfold padTrunc
  split
  · next h => simp; omega
  · next h => simp; omega

theorem padTrunc_eq_self {n : Nat} {r : Row} (h : r.length = n) : padTrunc n r = r := by
  unfold padTrunc
  rw [if_neg (by omega)]
  exact h ▸ List.take_length r

theorem getD_of_le (l : List String) (i : Nat) (h : l.length ≤ i) : l.getD i "" = "" := by
  induction l generalizing i with
  | nil => cases i <;> rfl
  | cons a t ih =>
    cases i with
    | zero => simp at h
    | succ j => exact ih j (by simpa using h)

theorem getD_take (l : List String) (n i : Nat) (h : i < n) :
    (l.take n).getD i "" = l.getD i "" := by
  induction l generalizing n i with
  | nil => simp
  | cons a t ih =>
    cases n with
    | zero => omega
    | succ m =>
      cases i with
      | zero => rfl
      | succ j => exact ih m j (by omega)

theorem getD_replicate (k j : Nat) : (List.replicate k ("" : String)).getD j "" = "" := by
  induction k generalizing j with
  | zero => cases j <;> rfl
  | succ m ih =>
    cases j with
    | zero => rfl
    | succ i => exact ih i

theorem getD_append_right (l m : List String) (i : Nat) (h : l.length ≤ i) :
    (l ++ m).getD i "" = m.getD (i - l.length) "" := by
  induction l generalizing i with
  | nil => simp
  | cons a t ih =>
    cases i with
    | zero => simp at h
    | succ j =>
      have := ih j (by simpa using h)
      simpa using this

theorem padTrunc_getD (n : Nat) (r : Row) (i : Nat) (h : i < n) :
    (padTrunc n r).getD i "" = r.getD i "" := by
  unfold padTrunc
  split
  · next hlt =>
    by_cases hi : i < r.length
    · exact getD_append_left r _ i hi
    · rw [getD_of_le r i (by omega), getD_append_right r _ i (by omega), getD_replicate]
  · next hge => exact getD_take r n i h

theorem mem_padTrunc (n : Nat) (r : Row) (c : String) (h : c ∈ padTrunc n r) :
    c ∈ r ∨ c = "" := by
  unfold padTrunc at h
  split at h
  · rcases List.mem_append.mp h with h1 | h1
    · exact Or.inl h1
    · exact Or.inr (List.eq_of_mem_replicate h1)
  · exact Or.inl (List.mem_of_mem_take h)

theorem prepRows_rowOK (ctx : Ctx) (rows : List Row) :
    ∀ r ∈ prepRows ctx.hlen rows, RowOK ctx r := by
  intro r hr
  unfold prepRows at hr
  rcases List.mem_map.mp hr with ⟨x, _, rfl⟩
  constructor
  · rw [List.length_map, padTrunc_length]
  · intro c hc
    rcases List.mem_map.mp hc with ⟨y, _, rfl⟩
    exact stripCell_idem y

/-! ### Profile and dict lemmas -/

theorem pget_map_self (l : List Nat) (f : Nat → String) (i : Nat) (h : i ∈ l) :
    pget (l.map (fun j => (j, f j))) i = f i := by
  induction l with
  | nil => simp at h
  | cons j t ih =>
    simp only [List.map_cons]
    show (if j = i then f j else pget (t.map _) i) = f i
    by_cases hji : j = i
    · rw [if_pos hji, hji]
    · rw [if_neg hji]
      rcases List.mem_cons.mp h with h1 | h1
      · exact absurd h1.symm hji
      · exact ih h1

theorem pget_profile (ctx : Ctx) (row : Row) (i : Nat) (h : i ∈ ctx.ois) :
    pget (profileOf ctx row) i = normOpt ctx i (row.getD i "") := by
  unfold profileOf
  exact pget_map_self _ _ _ h

theorem pget_pset_ne (p : List (Nat × String)) (i j : Nat) (v : String) (h : j ≠ i) :
    pget (pset p i v) j = pget p j := by
  induction p with
  | nil => rfl
  | cons q t ih =>
    obtain ⟨k, w⟩ := q
    show pget ((if k = i then (k, v) else (k, w)) :: pset t i v) j =
      (if k = j then w else pget t j)
    by_cases hki : k = i
    · rw [if_pos hki]
      show (if k = j then v else pget (pset t i v) j) = _
      have hkj : k ≠ j := fun he => h (by rw [← he, hki])
      rw [if_neg hkj, if_neg hkj]
      exact ih
    · rw [if_neg hki]
      show (if k = j then w else pget (pset t i v) j) = _
      by_cases hkj : k = j
      · rw [if_pos hkj, if_pos hkj]
      · rw [if_neg hkj, if_neg hkj]
        exact ih

theorem pset_map (l : List Nat) (f : Nat → String) (i : Nat) (v : String) :
    pset (l.map (fun j => (j, f j))) i v =
      l.map (fun j => (j, if j = i then v else f j)) := by
  induction l with
  | nil => rfl
  | cons j t ih =>
    simp only [List.map_cons]
    show (if j = i then (j, v) else (j, f j)) :: pset (t.map _) i v = _
    rw [ih]
    by_cases hji : j = i
    · simp [hji]
    · simp [hji]

theorem map_form_ext (l : List Nat) (f g : Nat → String) (h : ∀ j ∈ l, f j = g j) :
    l.map (fun j => (j, f j)) = l.map (fun j => (j, g j)) := by
  induction l with
  | nil => rfl
  | cons j t ih =>
    simp only [List.map_cons, List.cons.injEq]
    exact ⟨by rw [h j (List.mem_cons_self j t)],
      ih (fun x hx => h x (List.mem_cons_of_mem j hx))⟩

theorem profileOf_set_not_opt (ctx : Ctx) (row : Row) (i : Nat) (v : String)
    (h : i ∉ ctx.ois) : profileOf ctx (row.set i v) = profileOf ctx row := by
  unfold profileOf
  apply map_form_ext
  intro j hj
  have : j ≠ i := fun he => h (he ▸ hj)
  rw [getD_set_ne row i j v this]

/-! ### Compatibility lemmas -/

theorem compatible_symm (ois : List Nat) (a b : List (Nat × String)) :
    compatible ois a b = compatible ois b a := by
  unfold compatible
  induction ois with
  | nil => rfl
  | cons i t ih =>
    rw [List.all_cons, List.all_cons, ih]
    congr 1
    by_cases h1 : pget a i = ""
    · by_cases h2 : pget b i = "" <;> simp [h1, h2]
    · by_cases h2 : pget b i = ""
      · simp [h1, h2]
      · by_cases h3 : pget a i = pget b i
        · rw [h3]
        · have h4 : ¬ pget b i = pget a i := fun he => h3 he.symm
          simp [h1, h2, h3, h4]

theorem compatible_false_iff (ois : List Nat) (a b : List (Nat × String)) :
    compatible ois a b = false ↔
      ∃ i ∈ ois, pget a i ≠ "" ∧ pget b i ≠ "" ∧ pget a i ≠ pget b i := by
  constructor
  · intro h
    by_contra hno
    push_neg at hno
    have hall : compatible ois a b = true := by
      unfold compatible
      rw [List.all_eq_true]
      intro i hi
      by_cases h1 : pget a i = ""
      · simp [h1]
      · by_cases h2 : pget b i = ""
        · simp [h2]
        · have := hno i hi h1 h2
          simp [h1, h2, this]
    rw [h] at hall
    exact absurd hall (by simp)
  · intro ⟨i, hi, h1, h2, h3⟩
    cases hall : compatible ois a b with
    | false => rfl
    | true =>
      unfold compatible at hall
      rw [List.all_eq_true] at hall
      have := hall i hi
      simp [h1, h2, h3] at this

/-! ### Identity-key lemmas -/

theorem identityKeyFrom_set (ctx : Ctx) :
    ∀ (row : Row) (j i : Nat) (v : String),
      (j + i = ctx.countIndex ∨ (j + i) ∈ ctx.ois) →
      identityKeyFrom ctx j (row.set i v) = identityKeyFrom ctx j row := by
  intro row
  induction row with
  | nil => intro j i v _; rfl
  | cons a t ih =>
    intro j i v h
    cases i with
    | zero =>
      show identityKeyFrom ctx j (v :: t) = identityKeyFrom ctx j (a :: t)
      rcases h with h | h
      · rw [Nat.add_zero] at h
        unfold identityKeyFrom
        rw [if_pos h, if_pos h]
      · rw [Nat.add_zero] at h
        unfold identityKeyFrom
        by_cases hc : j = ctx.countIndex
        · rw [if_pos hc, if_pos hc]
        · rw [if_neg hc, if_neg hc, if_pos h, if_pos h]
    | succ i2 =>
      show identityKeyFrom ctx j (a :: t.set i2 v) = identityKeyFrom ctx j (a :: t)
      have h2 : (j + 1) + i2 = ctx.countIndex ∨ ((j + 1) + i2) ∈ ctx.ois := by
        rcases h with h | h
        · exact Or.inl (by omega)
        · exact Or.inr (by
            have : (j + 1) + i2 = j + (i2 + 1) := by omega
            rw [this]; exact h)
      unfold identityKeyFrom
      by_cases hc : j = ctx.countIndex
      · rw [if_pos hc, if_pos hc]
        exact ih (j + 1) i2 v h2
      · rw [if_neg hc, if_neg hc]
        by_cases ho : j ∈ ctx.ois
        · rw [if_pos ho, if_pos ho]
          exact ih (j + 1) i2 v h2
        · rw [if_neg ho, if_neg ho, ih (j + 1) i2 v h2]

theorem identityKey_set (ctx : Ctx) (row : Row) (i : Nat) (v : String)
    (h : i = ctx.countIndex ∨ i ∈ ctx.ois) :
    identityKey ctx (row.set i v) = identityKey ctx row := by
  unfold identityKey
  exact identityKeyFrom_set ctx row 0 i v (by simpa using h)

/-! ### Merge lemmas -/

theorem backfillStep_count (row : Row) (prof : List (Nat × String)) (acc : Entry) (i : Nat) :
    (backfillStep row prof acc i).count = acc.count := by
  unfold backfillStep
  split <;> rfl

theorem backfillStep_pget_ne (row : Row) (prof : List (Nat × String)) (acc : Entry)
    (i c : Nat) (h : c ≠ i) :
    pget (backfillStep row prof acc i).opt c = pget acc.opt c := by
  unfold backfillStep
  split
  · exact pget_pset_ne acc.opt i c _ h
  · rfl

theorem mergeInto_count (ctx : Ctx) (e : Entry) (row : Row) (cnt : Int)
    (prof : List (Nat × String)) :
    (mergeInto ctx e row cnt prof).count = e.count + cnt := by
  unfold mergeInto
  refine foldl_inv (P := fun (acc : Entry) => acc.count = e.count + cnt) _ _ rfl ?_
  intro x i _ hx
  rw [backfillStep_count, hx]

theorem mergeInto_entryOK (ctx : Ctx) (e : Entry) (row : Row) (cnt : Int)
    (hctx : CtxOK ctx) (he : EntryOK ctx e) (hrow : RowOK ctx row) :
    EntryOK ctx (mergeInto ctx e row cnt (profileOf ctx row)) := by
  obtain ⟨hci, hcio, hois⟩ := hctx
  obtain ⟨⟨helen, hecells⟩, hecnt, heopt⟩ := he
  obtain ⟨hrlen, hrcells⟩ := hrow
  unfold mergeInto
  have key : ∀ acc, (RowOK ctx acc.row ∧
      acc.row.getD ctx.countIndex "" = intStr (e.count + cnt) ∧
      acc.opt = profileOf ctx acc.row ∧ acc.count = e.count + cnt) →
      EntryOK ctx acc := by
    intro acc ⟨h1, h2, h3, h4⟩
    exact ⟨h1, by rw [h2, h4], h3⟩
  apply key
  refine foldl_inv (P := fun (acc : Entry) => RowOK ctx acc.row ∧
      acc.row.getD ctx.countIndex "" = intStr (e.count + cnt) ∧
      acc.opt = profileOf ctx acc.row ∧ acc.count = e.count + cnt) _ _ ?_ ?_
  · refine ⟨⟨by rw [List.length_set]; exact helen, ?_⟩, ?_, ?_, rfl⟩
    · intro c hc
      rcases mem_of_mem_set _ _ _ _ hc with h1 | h1
      · exact hecells c h1
      · exact h1 ▸ stripCell_intStr _
    · exact getD_set_self e.row ctx.countIndex _ (by omega)
    · rw [heopt]
      exact (profileOf_set_not_opt ctx e.row ctx.countIndex _ hcio).symm
  · intro acc i hi ⟨⟨hlen, hcells⟩, hcnt2, hopt, hcount⟩
    unfold backfillStep
    split
    · next hguard =>
      have hib : i < acc.row.length ∧ i < row.length := by
        rw [hlen, hrlen]
        exact ⟨hois i hi, hois i hi⟩
      rw [if_pos (by simp [hib.1, hib.2])]
      have hglt : i < acc.row.length := hib.1
      refine ⟨⟨by rw [List.length_set]; exact hlen, ?_⟩, ?_, ?_, hcount⟩
      · intro c hc
        rcases mem_of_mem_set _ _ _ _ hc with h1 | h1
        · exact hcells c h1
        · subst h1
          exact hrcells _ (mem_of_getD row i (by omega))
      · rw [getD_set_ne _ i ctx.countIndex _ (fun hcieq => hcio (hcieq ▸ hi))]
        exact hcnt2
      · rw [hopt]
        unfold profileOf
        rw [pset_map]
        apply map_form_ext
        intro j hj
        by_cases hji : j = i
        · subst hji
          rw [if_pos rfl, getD_set_self _ _ _ hglt]
          exact pget_map_self _ _ _ hj
        · rw [if_neg hji, getD_set_ne _ i j _ hji]
    · exact ⟨⟨hlen, hcells⟩, hcnt2, hopt, hcount⟩

theorem mergeInto_pget (ctx : Ctx) (e : Entry) (row : Row) (cnt : Int)
    (prof : List (Nat × String)) (he : EntryOK ctx e) (c : Nat) (hc : c ∈ ctx.ois) :
    pget (mergeInto ctx e row cnt prof).opt c =
      if pget e.opt c = "" then pget prof c else pget e.opt c := by
  obtain ⟨_, _, heopt⟩ := he
  unfold mergeInto
  by_cases hne : pget e.opt c = ""
  · rw [if_pos hne]
    by_cases hpc : pget prof c = ""
    · rw [hpc]
      refine foldl_inv (P := fun (acc : Entry) => pget acc.opt c = "") _ _ hne ?_
      intro acc i _ hacc
      by_cases hic : c = i
      · subst hic
        unfold backfillStep
        split
        · next hg =>
          simp only [Bool.and_eq_true, decide_eq_true_eq] at hg
          exact absurd hpc hg.2
        · exact hacc
      · rw [backfillStep_pget_ne _ _ _ _ _ hic]
        exact hacc
    · obtain ⟨l1, l2, hsplit⟩ := List.append_of_mem hc
      rw [hsplit, List.foldl_append, List.foldl_cons]
      have hQ : ∀ (l : List Nat) (acc : Entry),
          ((∃ g : Nat → String, acc.opt = ctx.ois.map (fun j => (j, g j))) ∧
            (pget acc.opt c = "" ∨ pget acc.opt c = pget prof c)) →
          ((∃ g : Nat → String, (l.foldl (backfillStep row prof) acc).opt =
              ctx.ois.map (fun j => (j, g j))) ∧
            (pget (l.foldl (backfillStep row prof) acc).opt c = "" ∨
              pget (l.foldl (backfillStep row prof) acc).opt c = pget prof c)) := by
        intro l acc hacc
        refine foldl_inv (P := fun (acc : Entry) =>
          (∃ g : Nat → String, acc.opt = ctx.ois.map (fun j => (j, g j))) ∧
          (pget acc.opt c = "" ∨ pget acc.opt c = pget prof c)) _ _ hacc ?_
        intro x i _ hxx
        obtain ⟨⟨g, hg⟩, hx⟩ := hxx
        unfold backfillStep
        split
        · refine ⟨⟨fun j => if j = i then pget prof i else g j, ?_⟩, ?_⟩
          · show pset x.opt i (pget prof i) = _
            rw [hg, pset_map]
          · by_cases hic : c = i
            · subst hic
              right
              show pget (pset x.opt c (pget prof c)) c = pget prof c
              rw [hg, pset_map, pget_map_self _ _ _ hc, if_pos rfl]
            · show pget (pset x.opt i (pget prof i)) c = "" ∨ _
              rw [pget_pset_ne _ _ _ _ hic]
              exact hx
        · exact ⟨⟨g, hg⟩, hx⟩
      have hstart : (∃ g : Nat → String, (Entry.mk (e.row.set ctx.countIndex (intStr (e.count + cnt)))
            (e.count + cnt) e.opt).opt = ctx.ois.map (fun j => (j, g j))) ∧
          (pget (Entry.mk (e.row.set ctx.countIndex (intStr (e.count + cnt)))
            (e.count + cnt) e.opt).opt c = "" ∨
           pget (Entry.mk (e.row.set ctx.countIndex (intStr (e.count + cnt)))
            (e.count + cnt) e.opt).opt c = pget prof c) := by
        constructor
        · exact ⟨fun j => normOpt ctx j (e.row.getD j ""), by
            show e.opt = _
            rw [heopt]; rfl⟩
        · exact Or.inl hne
      have h1 := hQ l1 _ hstart
      set acc1 := l1.foldl (backfillStep row prof)
        (Entry.mk (e.row.set ctx.countIndex (intStr (e.count + cnt))) (e.count + cnt) e.opt)
        with hacc1
      have h2 : pget (backfillStep row prof acc1 c).opt c = pget prof c ∧
          (∃ g : Nat → String, (backfillStep row prof acc1 c).opt = ctx.ois.map (fun j => (j, g j))) := by
        obtain ⟨⟨g, hg⟩, hor⟩ := h1
        rcases hor with hz | hv
        · unfold backfillStep
          rw [if_pos (by simp [hz, hpc])]
          constructor
          · show pget (pset acc1.opt c (pget prof c)) c = pget prof c
            rw [hg, pset_map, pget_map_self _ _ _ hc, if_pos rfl]
          · exact ⟨fun j => if j = c then pget prof c else g j, by
              show pset acc1.opt c (pget prof c) = _
              rw [hg, pset_map]⟩
        · unfold backfillStep
          rw [if_neg (by simp [hv, hpc])]
          exact ⟨hv, ⟨g, hg⟩⟩
      refine foldl_inv (P := fun (acc : Entry) => pget acc.opt c = pget prof c) _ _ h2.1 ?_
      intro x i _ hx
      by_cases hic : c = i
      · subst hic
        unfold backfillStep
        split
        · next hg2 =>
          simp only [Bool.and_eq_true, decide_eq_true_eq] at hg2
          exact absurd (hx ▸ hg2.1) hpc
        · exact hx
      · rw [backfillStep_pget_ne _ _ _ _ _ hic]
        exact hx
  · rw [if_neg hne]
    refine foldl_inv (P := fun (acc : Entry) => pget acc.opt c = pget e.opt c) _ _ rfl ?_
    intro acc i _ hacc
    by_cases hic : c = i
    · subst hic
      unfold backfillStep
      split
      · next hg =>
        simp only [Bool.and_eq_true, decide_eq_true_eq] at hg
        exact absurd (hacc ▸ hg.1) hne
      · exact hacc
    · rw [backfillStep_pget_ne _ _ _ _ _ hic]
      exact hacc

theorem mergeInto_pget_nonempty (ctx : Ctx) (e : Entry) (row : Row) (cnt : Int)
    (prof : List (Nat × String)) (he : EntryOK ctx e) (c : Nat) (hc : c ∈ ctx.ois)
    (hne : pget e.opt c ≠ "") :
    pget (mergeInto ctx e row cnt prof).opt c = pget e.opt c := by
  rw [mergeInto_pget ctx e row cnt prof he c hc, if_neg hne]

theorem mergeInto_key (ctx : Ctx) (e : Entry) (row : Row) (cnt : Int)
    (prof : List (Nat × String)) (hctx : CtxOK ctx) :
    identityKey ctx (mergeInto ctx e row cnt prof).row = identityKey ctx e.row := by
  unfold mergeInto
  refine foldl_inv (P := fun (acc : Entry) => identityKey ctx acc.row = identityKey ctx e.row) _ _ ?_ ?_
  · exact identityKey_set ctx e.row ctx.countIndex _ (Or.inl rfl)
  · intro acc i hi hacc
    unfold backfillStep
    split
    · split
      · rw [identityKey_set ctx acc.row i _ (Or.inr hi)]
        exact hacc
      · exact hacc
    · exact hacc

/-! ### New-entry and absorb lemmas -/

theorem newEntry_row (ctx : Ctx) (row : Row) (cnt : Int) (prof : List (Nat × String)) :
    (newEntry ctx row cnt prof).row = row.set ctx.countIndex (intStr cnt) := rfl

theorem newEntry_ok (ctx : Ctx) (row : Row) (cnt : Int)
    (hctx : CtxOK ctx) (hrow : RowOK ctx row) :
    EntryOK ctx (newEntry ctx row cnt (profileOf ctx row)) := by
  obtain ⟨hci, hcio, _⟩ := hctx
  obtain ⟨hlen, hcells⟩ := hrow
  refine ⟨⟨?_, ?_⟩, ?_, ?_⟩
  · show (row.set ctx.countIndex (intStr cnt)).length = ctx.hlen
    rw [List.length_set]; exact hlen
  · intro c hc
    rcases mem_of_mem_set _ _ _ _ hc with h1 | h1
    · exact hcells c h1
    · exact h1 ▸ stripCell_intStr _
  · show (row.set ctx.countIndex (intStr cnt)).getD ctx.countIndex "" = intStr cnt
    exact getD_set_self row ctx.countIndex _ (by omega)
  · show profileOf ctx row = profileOf ctx (row.set ctx.countIndex (intStr cnt))
    exact (profileOf_set_not_opt ctx row ctx.countIndex _ hcio).symm

theorem newEntry_key (ctx : Ctx) (row : Row) (cnt : Int) (prof : List (Nat × String)) :
    identityKey ctx (newEntry ctx row cnt prof).row = identityKey ctx row :=
  identityKey_set ctx row ctx.countIndex _ (Or.inl rfl)

theorem absorb_spec (ctx : Ctx) (row : Row) (cnt : Int) (prof : List (Nat × String)) :
    ∀ es : List Entry,
      (∃ pre e post, es = pre ++ e :: post ∧
        (∀ x ∈ pre, compatible ctx.ois x.opt prof = false) ∧
        compatible ctx.ois e.opt prof = true ∧
        absorb ctx row cnt prof es = pre ++ mergeInto ctx e row cnt prof :: post) ∨
      ((∀ x ∈ es, compatible ctx.ois x.opt prof = false) ∧
        absorb ctx row cnt prof es = es ++ [newEntry ctx row cnt prof]) := by
  intro es
  induction es with
  | nil => exact Or.inr ⟨by simp, rfl⟩
  | cons e t ih =>
    by_cases hce : compatible ctx.ois e.opt prof = true
    · left
      exact ⟨[], e, t, rfl, by simp, hce, by simp [absorb, hce]⟩
    · have hf : compatible ctx.ois e.opt prof = false := by
        cases h : compatible ctx.ois e.opt prof
        · rfl
        · exact absurd h hce
      have habs : absorb ctx row cnt prof (e :: t) = e :: absorb ctx row cnt prof t := by
        simp [absorb, hf]
      rcases ih with ⟨pre, e2, post, heq, hpre, hcomp, habs2⟩ | ⟨hall, habs2⟩
      · left
        refine ⟨e :: pre, e2, post, by rw [heq]; rfl, ?_, hcomp, ?_⟩
        · intro x hx
          rcases List.mem_cons.mp hx with h1 | h1
          · exact h1 ▸ hf
          · exact hpre x h1
        · rw [habs, habs2]
          rfl
      · right
        refine ⟨?_, ?_⟩
        · intro x hx
          rcases List.mem_cons.mp hx with h1 | h1
          · exact h1 ▸ hf
          · exact hall x h1
        · rw [habs, habs2]
          rfl

/-! ### Column lookup lemmas -/

theorem findCI_lt : ∀ (h : List String) (t : String) (i : Nat),
    find_column_index_ci h t = some i → i < h.length := by
  intro h
  induction h with
  | nil => intro t i hf; simp [find_column_index_ci] at hf
  | cons a s ih =>
    intro t i hf
    unfold find_column_index_ci at hf
    split at hf
    · cases hf; simp
    · cases hj : find_column_index_ci s t with
      | none => rw [hj] at hf; simp at hf
      | some j =>
        rw [hj] at hf
        simp at hf
        have := ih t j hj
        simp
        omega

theorem findCI_cell : ∀ (h : List String) (t : String) (i : Nat),
    find_column_index_ci h t = some i →
    keyLowerL (h.getD i "").data = keyLowerL t.data := by
  intro h
  induction h with
  | nil => intro t i hf; simp [find_column_index_ci] at hf
  | cons a s ih =>
    intro t i hf
    unfold find_column_index_ci at hf
    split at hf
    · next heq =>
      cases hf
      exact heq
    · cases hj : find_column_index_ci s t with
      | none => rw [hj] at hf; simp at hf
      | some j =>
        rw [hj] at hf
        simp at hf
        subst hf
        exact ih t j hj

theorem findCI_append_one (h : List String) (x t : String) :
    find_column_index_ci (h ++ [x]) t =
      match find_column_index_ci h t with
      | some i => some i
      | none => if keyLowerL x.data = keyLowerL t.data then some h.length else none := by
  induction h with
  | nil =>
    show find_column_index_ci [x] t = _
    unfold find_column_index_ci
    split
    · next heq => simp [heq]
    · next heq => simp [heq, find_column_index_ci]
  | cons a s ih =>
    show find_column_index_ci (a :: (s ++ [x])) t = _
    unfold find_column_index_ci
    split
    · rfl
    · rw [ih]
      cases hj : find_column_index_ci s t with
      | none =>
        simp only []
        split
        · simp
        · simp
      | some j => simp

theorem getD_append_singleton (h : List String) (x : String) :
    (h ++ [x]).getD h.length "" = x := by
  rw [getD_append_right h [x] h.length (le_refl _)]
  simp

/-- The Count cell the engine records its index for always normalizes to
`"count"`. -/
theorem ensureCount_ci_cell (header : Row) (rows : List Row) :
    keyLowerL ((headerOut header rows).getD (ciOf header rows) "").data =
      keyLowerL ("Count" : String).data := by
  unfold headerOut ciOf ensureCount
  cases hf : find_column_index_ci header "Count" with
  | some i =>
    simp only []
    exact findCI_cell header "Count" i hf
  | none =>
    simp only []
    rw [getD_append_singleton]

theorem ensureCount_ci_lt (header : Row) (rows : List Row) :
    ciOf header rows < (headerOut header rows).length := by
  unfold headerOut ciOf ensureCount
  cases hf : find_column_index_ci header "Count" with
  | some i =>
    simp only []
    exact findCI_lt header "Count" i hf
  | none =>
    simp only [List.length_append, List.length_cons, List.length_nil]
    omega

theorem mkCtx_count (h : Row) (ci : Nat) : (mkCtx h ci).countIndex = ci := rfl

theorem mkCtx_hlen (h : Row) (ci : Nat) : (mkCtx h ci).hlen = h.length := rfl

theorem mkCtx_ois (h : Row) (ci : Nat) :
    (mkCtx h ci).ois =
      [find_column_index_ci h "Comment", find_column_index_ci h "Genre",
       find_column_index_ci h "Year", find_column_index_ci h "Length",
       find_column_index_ci h "BPM"].filterMap id := rfl

/-- The five optional targets and Count have pairwise different normalized
names, so the optional indices avoid the Count index and stay in range. -/
theorem ctxOf_ok (header : Row) (rows : List Row) : CtxOK (ctxOf header rows) := by
  have hne : ∀ tgt ∈ (["Comment", "Genre", "Year", "Length", "BPM"] : List String),
      keyLowerL ("Count" : String).data ≠ keyLowerL tgt.data := by decide
  have key : ∀ tgt : String, find_column_index_ci (headerOut header rows) tgt =
      some (ciOf header rows) →
      keyLowerL ("Count" : String).data = keyLowerL tgt.data := by
    intro tgt hfind
    rw [← ensureCount_ci_cell header rows]
    exact findCI_cell _ tgt _ hfind
  refine ⟨?_, ?_, ?_⟩
  · unfold ctxOf
    rw [mkCtx_count, mkCtx_hlen]
    exact ensureCount_ci_lt header rows
  · unfold ctxOf
    rw [mkCtx_count, mkCtx_ois]
    intro hmem
    rw [List.mem_filterMap] at hmem
    obtain ⟨a, ha, haeq⟩ := hmem
    simp only [id] at haeq
    subst haeq
    simp only [List.mem_cons, List.mem_singleton, List.not_mem_nil, or_false] at ha
    rcases ha with h | h | h | h | h
    · exact hne "Comment" (by simp) (key "Comment" h.symm)
    · exact hne "Genre" (by simp) (key "Genre" h.symm)
    · exact hne "Year" (by simp) (key "Year" h.symm)
    · exact hne "Length" (by simp) (key "Length" h.symm)
    · exact hne "BPM" (by simp) (key "BPM" h.symm)
  · unfold ctxOf
    rw [mkCtx_ois, mkCtx_hlen]
    intro i hi
    rw [List.mem_filterMap] at hi
    obtain ⟨a, ha, haeq⟩ := hi
    simp only [id] at haeq
    subst haeq
    simp only [List.mem_cons, List.mem_singleton, List.not_mem_nil, or_false] at ha
    rcases ha with h | h | h | h | h <;> exact findCI_lt _ _ _ h.symm

/-- The output header always carries the Count column at the recorded
index. -/
theorem findCI_count_out (header : Row) (rows : List Row) :
    find_column_index_ci (headerOut header rows) "Count" = some (ciOf header rows) := by
  unfold headerOut ciOf ensureCount
  cases hf : find_column_index_ci header "Count" with
  | some i =>
    simp only []
    exact hf
  | none =>
    simp only []
    rw [findCI_append_one, hf]
    simp

/-! ### The scan invariant -/

theorem incompat_of_witness (ois : List Nat) (a b : List (Nat × String))
    (c : Nat) (hc : c ∈ ois) (h1 : pget a c ≠ "") (h2 : pget b c ≠ "")
    (h3 : pget a c ≠ pget b c) : compatible ois a b = false :=
  (compatible_false_iff ois a b).mpr ⟨c, hc, h1, h2, h3⟩

theorem absorb_preserve (ctx : Ctx) (row : Row) (cnt : Int)
    (hctx : CtxOK ctx) (hrow : RowOK ctx row) :
    ∀ es : List Entry,
      (∀ e ∈ es, EntryOK ctx e ∧ identityKey ctx e.row = identityKey ctx row) →
      es.Pairwise (fun a b => compatible ctx.ois a.opt b.opt = false) →
      GroupOK ctx (identityKey ctx row) (absorb ctx row cnt (profileOf ctx row) es) := by
  intro es hall hpw
  rcases absorb_spec ctx row cnt (profileOf ctx row) es with
    ⟨pre, e, post, heq, hpre, hcomp, habs⟩ | ⟨hinc, habs⟩
  · subst heq
    rw [habs]
    have heOK : EntryOK ctx e ∧ identityKey ctx e.row = identityKey ctx row :=
      hall e (by simp)
    have hmOK : EntryOK ctx (mergeInto ctx e row cnt (profileOf ctx row)) :=
      mergeInto_entryOK ctx e row cnt hctx heOK.1 hrow
    have hmkey : identityKey ctx (mergeInto ctx e row cnt (profileOf ctx row)).row =
        identityKey ctx row := by
      rw [mergeInto_key ctx e row cnt _ hctx, heOK.2]
    have hkeep : ∀ b2 : Entry,
        compatible ctx.ois e.opt b2.opt = false →
        compatible ctx.ois (mergeInto ctx e row cnt (profileOf ctx row)).opt b2.opt = false := by
      intro b2 hb2
      obtain ⟨c, hc, h1, h2, h3⟩ := (compatible_false_iff _ _ _).mp hb2
      refine incompat_of_witness _ _ _ c hc ?_ ?_ ?_
      · rw [mergeInto_pget_nonempty ctx e row cnt _ heOK.1 c hc h1]
        exact h1
      · exact h2
      · rw [mergeInto_pget_nonempty ctx e row cnt _ heOK.1 c hc h1]
        exact h3
    have hkeep2 : ∀ a2 : Entry,
        compatible ctx.ois a2.opt e.opt = false →
        compatible ctx.ois a2.opt (mergeInto ctx e row cnt (profileOf ctx row)).opt = false := by
      intro a2 ha2
      rw [compatible_symm] at ha2 ⊢
      exact hkeep a2 ha2
    refine ⟨by simp, ?_, ?_⟩
    · intro x hx
      rcases List.mem_append.mp hx with h1 | h1
      · exact hall x (List.mem_append.mpr (Or.inl h1))
      · rcases List.mem_cons.mp h1 with h2 | h2
        · exact h2 ▸ ⟨hmOK, hmkey⟩
        · exact hall x (by simp [h2])
    · rw [List.pairwise_append] at hpw ⊢
      obtain ⟨hpw1, hpw2, hpw3⟩ := hpw
      rw [List.pairwise_cons] at hpw2 ⊢
      refine ⟨hpw1, ⟨?_, hpw2.2⟩, ?_⟩
      · intro b2 hb2
        exact hkeep b2 (hpw2.1 b2 hb2)
      · intro a2 ha2 b2 hb2
        rcases List.mem_cons.mp hb2 with h2 | h2
        · subst h2
          exact hkeep2 a2 (hpw3 a2 ha2 e (by simp))
        · exact hpw3 a2 ha2 b2 (by simp [h2])
  · rw [habs]
    refine ⟨by simp, ?_, ?_⟩
    · intro x hx
      rcases List.mem_append.mp hx with h1 | h1
      · exact hall x h1
      · rcases List.mem_singleton.mp h1 with rfl
        exact ⟨newEntry_ok ctx row cnt hctx hrow, newEntry_key ctx row cnt _⟩
    · rw [List.pairwise_append]
      refine ⟨hpw, by simp, ?_⟩
      intro a2 ha2 b2 hb2
      rcases List.mem_singleton.mp hb2 with rfl
      exact hinc a2 ha2

theorem gupdate_keys {ε : Type} (k : Key) (f : List ε → List ε) :
    ∀ gs : List (Key × List ε),
      (gupdate k f gs).map Prod.fst =
        if k ∈ gs.map Prod.fst then gs.map Prod.fst else gs.map Prod.fst ++ [k] := by
  intro gs
  induction gs with
  | nil => simp [gupdate]
  | cons g rest ih =>
    obtain ⟨k0, es0⟩ := g
    show (gupdate k f ((k0, es0) :: rest)).map Prod.fst = _
    unfold gupdate
    by_cases hk : k0 = k
    · rw [if_pos hk]
      simp [hk]
    · rw [if_neg hk]
      simp only [List.map_cons]
      rw [ih]
      by_cases hmem : k ∈ rest.map Prod.fst
      · rw [if_pos hmem, if_pos (by simp [hmem])]
      · rw [if_neg hmem, if_neg (by
          simp only [List.map_cons, List.mem_cons]
          push_neg
          exact ⟨fun he => hk he.symm, hmem⟩)]
        simp

theorem gupdate_forall (ctx : Ctx) (k : Key) (f : List Entry → List Entry) :
    ∀ gs : Groups,
      (∀ g ∈ gs, GroupOK ctx g.1 g.2) →
      (∀ es : List Entry,
        (∀ e ∈ es, EntryOK ctx e ∧ identityKey ctx e.row = k) →
        es.Pairwise (fun a b => compatible ctx.ois a.opt b.opt = false) →
        GroupOK ctx k (f es)) →
      ∀ g ∈ gupdate k f gs, GroupOK ctx g.1 g.2 := by
  intro gs
  induction gs with
  | nil =>
    intro _ hf g hg
    unfold gupdate at hg
    rcases List.mem_singleton.mp hg with rfl
    exact hf [] (by simp) (by simp)
  | cons g0 rest ih =>
    intro hold hf g hg
    obtain ⟨k0, es0⟩ := g0
    unfold gupdate at hg
    by_cases hk : k0 = k
    · rw [if_pos hk] at hg
      rcases List.mem_cons.mp hg with h1 | h1
      · subst h1
        have h0 := hold (k0, es0) (by simp)
        subst hk
        exact hf es0 h0.2.1 h0.2.2
      · exact hold g (by simp [h1])
    · rw [if_neg hk] at hg
      rcases List.mem_cons.mp hg with h1 | h1
      · exact h1 ▸ hold (k0, es0) (by simp)
      · exact ih (fun g2 hg2 => hold g2 (by simp [hg2])) hf g h1

theorem processRow_ok (ctx : Ctx) (hctx : CtxOK ctx) (gs : Groups) (row : Row)
    (hgs : GroupsOK ctx gs) (hrow : RowOK ctx row) :
    GroupsOK ctx (processRow ctx gs row) := by
  obtain ⟨hnd, hall⟩ := hgs
  constructor
  · rw [processRow, gupdate_keys]
    split
    · exact hnd
    · next hnmem => exact List.Nodup.append hnd (by simp) (by
        intro a ha hb
        rcases List.mem_singleton.mp hb with rfl
        exact hnmem ha)
  · unfold processRow
    apply gupdate_forall ctx _ _ gs hall
    intro es hes hpw
    exact absorb_preserve ctx row (rowCount ctx row) hctx hrow es hes hpw

theorem dedupEntries_ok (ctx : Ctx) (hctx : CtxOK ctx) (rows : List Row)
    (hrows : ∀ r ∈ rows, RowOK ctx r) : GroupsOK ctx (dedupEntries ctx rows) := by
  unfold dedupEntries
  refine foldl_inv (P := fun gs : Groups => GroupsOK ctx gs) _ _ ⟨by simp, by simp⟩ ?_
  intro gs r hr hgs
  exact processRow_ok ctx hctx gs r hgs (hrows r hr)

/-! ### Replaying the engine on its own output -/

theorem gupdate_append_self {ε : Type} (k : Key) (f : List ε → List ε)
    (es : List ε) :
    ∀ l : List (Key × List ε), k ∉ l.map Prod.fst →
      gupdate k f (l ++ [(k, es)]) = l ++ [(k, f es)] := by
  intro l
  induction l with
  | nil =>
    intro _
    show gupdate k f [(k, es)] = [(k, f es)]
    unfold gupdate
    rw [if_pos rfl]
  | cons g rest ih =>
    intro hk
    obtain ⟨k0, es0⟩ := g
    have hk0 : k0 ≠ k := by
      intro he
      exact hk (by simp [he])
    show gupdate k f ((k0, es0) :: (rest ++ [(k, es)])) = (k0, es0) :: (rest ++ [(k, f es)])
    unfold gupdate
    rw [if_neg hk0, ih (fun hm => hk (by simp [hm]))]

theorem gupdate_not_mem {ε : Type} (k : Key) (f : List ε → List ε) :
    ∀ gs : List (Key × List ε), k ∉ gs.map Prod.fst →
      gupdate k f gs = gs ++ [(k, f [])] := by
  intro gs
  induction gs with
  | nil => intro _; rfl
  | cons g rest ih =>
    intro hk
    obtain ⟨k0, es0⟩ := g
    have hk0 : k0 ≠ k := fun he => hk (by simp [he])
    show gupdate k f ((k0, es0) :: rest) = (k0, es0) :: (rest ++ [(k, f [])])
    unfold gupdate
    rw [if_neg hk0, ih (fun hm => hk (by simp [hm]))]

theorem absorb_all_incompat (ctx : Ctx) (row : Row) (cnt : Int)
    (prof : List (Nat × String)) (es : List Entry)
    (h : ∀ x ∈ es, compatible ctx.ois x.opt prof = false) :
    absorb ctx row cnt prof es = es ++ [newEntry ctx row cnt prof] := by
  rcases absorb_spec ctx row cnt prof es with
    ⟨pre, e, post, heq, _, hcomp, _⟩ | ⟨_, habs⟩
  · exfalso
    have := h e (by rw [heq]; simp)
    rw [this] at hcomp
    cases hcomp
  · exact habs

theorem newEntry_of_entry (ctx : Ctx) (e : Entry) (hctx : CtxOK ctx)
    (he : EntryOK ctx e) :
    newEntry ctx e.row e.count (profileOf ctx e.row) = e := by
  obtain ⟨⟨hlen, _⟩, hcnt, hopt⟩ := he
  obtain ⟨hci, _, _⟩ := hctx
  unfold newEntry
  have h1 : e.row.set ctx.countIndex (intStr e.count) = e.row := by
    rw [← hcnt]
    exact set_getD_self e.row ctx.countIndex (by omega)
  cases e with
  | mk r c o =>
    simp only [] at h1 hopt ⊢
    rw [h1, ← hopt]

theorem outRows_cons (g : Key × List Entry) (rest : Groups) :
    outRows (g :: rest) = g.2.map Entry.row ++ outRows rest := rfl

theorem mem_outRows (gs : Groups) (r : Row) :
    r ∈ outRows gs ↔ ∃ g ∈ gs, ∃ e ∈ g.2, r = e.row := by
  induction gs with
  | nil => simp [outRows]
  | cons g rest ih =>
    rw [outRows_cons, List.mem_append, ih]
    constructor
    · intro h
      rcases h with h | ⟨g2, hg2, e, he, hr⟩
      · rcases List.mem_map.mp h with ⟨e, he, hr⟩
        exact ⟨g, by simp, e, he, hr.symm⟩
      · exact ⟨g2, by simp [hg2], e, he, hr⟩
    · intro ⟨g2, hg2, e, he, hr⟩
      rcases List.mem_cons.mp hg2 with h1 | h1
      · subst h1
        exact Or.inl (List.mem_map.mpr ⟨e, he, hr.symm⟩)
      · exact Or.inr ⟨g2, h1, e, he, hr⟩

theorem outRows_rowOK (ctx : Ctx) (gs : Groups) (hgs : GroupsOK ctx gs) :
    ∀ r ∈ outRows gs, RowOK ctx r := by
  intro r hr
  rcases (mem_outRows gs r).mp hr with ⟨g, hg, e, he, rfl⟩
  exact ((hgs.2 g hg).2.1 e he).1.1

theorem prepRows_of_rowOK (ctx : Ctx) (rows : List Row)
    (h : ∀ r ∈ rows, RowOK ctx r) : prepRows ctx.hlen rows = rows := by
  unfold prepRows
  apply map_eq_self_of_mem
  intro r hr
  obtain ⟨hlen, hcells⟩ := h r hr
  rw [padTrunc_eq_self hlen]
  exact map_eq_self_of_mem _ _ hcells

theorem replay_group (ctx : Ctx) (hctx : CtxOK ctx) (k : Key) :
    ∀ (es2 : List Entry) (done : List Entry) (acc1 : Groups),
      k ∉ acc1.map Prod.fst →
      (∀ e ∈ done ++ es2, EntryOK ctx e ∧ identityKey ctx e.row = k) →
      (done ++ es2).Pairwise (fun a b => compatible ctx.ois a.opt b.opt = false) →
      List.foldl (processRow ctx) (acc1 ++ [(k, done)]) (es2.map Entry.row) =
        acc1 ++ [(k, done ++ es2)] := by
  intro es2
  induction es2 with
  | nil =>
    intro done acc1 _ _ _
    simp
  | cons e rest ih =>
    intro done acc1 hnk hall hpw
    have heOK : EntryOK ctx e ∧ identityKey ctx e.row = k := hall e (by simp)
    have hstep : processRow ctx (acc1 ++ [(k, done)]) e.row =
        acc1 ++ [(k, done ++ [e])] := by
      unfold processRow
      have hkey : identityKey ctx e.row = k := heOK.2
      have hcnt : rowCount ctx e.row = e.count := rowCount_of_intStr ctx e.row e.count heOK.1.2.1
      have hprof : profileOf ctx e.row = e.opt := heOK.1.2.2.symm
      rw [hkey, hcnt, hprof, gupdate_append_self k _ done acc1 hnk]
      congr 2
      rw [absorb_all_incompat ctx e.row e.count e.opt done ?hinc]
      · congr 1
        rw [show newEntry ctx e.row e.count e.opt =
            newEntry ctx e.row e.count (profileOf ctx e.row) by rw [hprof],
          newEntry_of_entry ctx e hctx heOK.1]
      · intro x hx
        rw [List.pairwise_append] at hpw
        have := hpw.2.2 x hx e (by simp)
        exact this
    show List.foldl (processRow ctx) (processRow ctx (acc1 ++ [(k, done)]) e.row)
        (rest.map Entry.row) = _
    rw [hstep]
    have := ih (done ++ [e]) acc1 hnk
      (by
        intro x hx
        apply hall x
        rw [List.append_assoc] at hx
        simpa using hx)
      (by
        rw [List.append_assoc]
        simpa using hpw)
    rw [this, List.append_assoc]
    simp

theorem replay_groups (ctx : Ctx) (hctx : CtxOK ctx) :
    ∀ (gs2 : Groups) (acc : Groups),
      (((acc ++ gs2).map Prod.fst)).Nodup →
      (∀ g ∈ gs2, GroupOK ctx g.1 g.2) →
      List.foldl (processRow ctx) acc (outRows gs2) = acc ++ gs2 := by
  intro gs2
  induction gs2 with
  | nil =>
    intro acc _ _
    simp [outRows]
  | cons g rest ih =>
    intro acc hnd hok
    obtain ⟨k, es⟩ := g
    have hg : GroupOK ctx k es := hok (k, es) (by simp)
    obtain ⟨hne, hes, hpw⟩ := hg
    cases hesc : es with
    | nil => exact absurd hesc hne
    | cons e1 es2 =>
      subst hesc
      rw [outRows_cons, List.foldl_append]
      have hknacc : k ∉ acc.map Prod.fst := by
        intro hmem
        rw [List.map_append] at hnd
        rcases (List.nodup_append.mp hnd) with ⟨_, _, hdisj⟩
        exact hdisj hmem (by simp)
      have hfirst : processRow ctx acc e1.row = acc ++ [(k, [e1])] := by
        unfold processRow
        have he1 := hes e1 (by simp)
        have hkey : identityKey ctx e1.row = k := he1.2
        have hcnt : rowCount ctx e1.row = e1.count := rowCount_of_intStr ctx e1.row e1.count he1.1.2.1
        have hprof : profileOf ctx e1.row = e1.opt := he1.1.2.2.symm
        rw [hkey, hcnt, hprof, gupdate_not_mem k _ acc hknacc]
        have habs0 : absorb ctx e1.row e1.count e1.opt [] = [e1] := by
          show [newEntry ctx e1.row e1.count e1.opt] = [e1]
          rw [show newEntry ctx e1.row e1.count e1.opt =
              newEntry ctx e1.row e1.count (profileOf ctx e1.row) by rw [hprof],
            newEntry_of_entry ctx e1 hctx he1.1]
        rw [habs0]
      show List.foldl (processRow ctx)
          (List.foldl (processRow ctx) acc ((e1 :: es2).map Entry.row)) (outRows rest) = _
      rw [show (e1 :: es2).map Entry.row = e1.row :: es2.map Entry.row from rfl]
      rw [List.foldl_cons, hfirst]
      rw [replay_group ctx hctx k es2 [e1] acc hknacc (by simpa using hes) (by simpa using hpw)]
      have hnd2 : (((acc ++ [(k, [e1] ++ es2)]) ++ rest).map Prod.fst).Nodup := by
        rw [List.map_append] at hnd ⊢
        simpa [List.append_assoc] using hnd
      rw [ih (acc ++ [(k, [e1] ++ es2)]) hnd2 (fun g2 hg2 => hok g2 (by simp [hg2]))]
      simp

/-! ### Assembling the pipeline facts -/

theorem dedupCore_eq (header : Row) (rows : List Row) :
    dedupCore header rows =
      headerOut header rows ::
        outRows (dedupEntries (ctxOf header rows) (prepOf header rows)) := rfl

theorem deduplicate_sheet_cons (header r : Row) (rest : List Row) :
    deduplicate_sheet (header :: r :: rest) = dedupCore header (r :: rest) := rfl

theorem gupdate_ne_nil {ε : Type} (k : Key) (f : List ε → List ε) :
    ∀ gs : List (Key × List ε), gupdate k f gs ≠ [] := by
  intro gs
  cases gs with
  | nil => simp [gupdate]
  | cons g rest =>
    obtain ⟨k0, es0⟩ := g
    unfold gupdate
    split <;> simp

theorem foldl_processRow_ne_nil (ctx : Ctx) :
    ∀ (rows : List Row) (gs : Groups), gs ≠ [] →
      List.foldl (processRow ctx) gs rows ≠ [] := by
  intro rows
  induction rows with
  | nil => intro gs h; exact h
  | cons r rest ih =>
    intro gs _
    exact ih (processRow ctx gs r) (gupdate_ne_nil _ _ gs)

theorem dedupEntries_ne_nil (ctx : Ctx) (rows : List Row) (h : rows ≠ []) :
    dedupEntries ctx rows ≠ [] := by
  cases rows with
  | nil => exact absurd rfl h
  | cons r rest =>
    unfold dedupEntries
    rw [List.foldl_cons]
    exact foldl_processRow_ne_nil ctx rest _ (gupdate_ne_nil _ _ [])

theorem outRows_ne_nil (ctx : Ctx) (gs : Groups) (hgs : GroupsOK ctx gs)
    (h : gs ≠ []) : outRows gs ≠ [] := by
  cases gs with
  | nil => exact absurd rfl h
  | cons g rest =>
    rw [outRows_cons]
    have := (hgs.2 g (by simp)).1
    cases hesc : g.2 with
    | nil => exact absurd hesc this
    | cons e es => simp

theorem rowsEnsured_ne_nil (header : Row) (rows : List Row) (h : rows ≠ []) :
    rowsEnsured header rows ≠ [] := by
  unfold rowsEnsured ensureCount
  cases find_column_index_ci header "Count" with
  | some i => exact h
  | none =>
    simp only []
    intro hc
    exact h (List.map_eq_nil_iff.mp hc)

theorem prepOf_ne_nil (header : Row) (rows : List Row) (h : rows ≠ []) :
    prepOf header rows ≠ [] := by
  unfold prepOf prepRows
  intro hc
  exact rowsEnsured_ne_nil header rows h (List.map_eq_nil_iff.mp hc)

theorem ensureCount_of_found (h : Row) (rows2 : List Row) (i : Nat)
    (hf : find_column_index_ci h "Count" = some i) :
    ensureCount h rows2 = (h, rows2, i) := by
  unfold ensureCount
  rw [hf]

theorem prepOf_rowOK (header : Row) (rows : List Row) :
    ∀ r ∈ prepOf header rows, RowOK (ctxOf header rows) r := by
  intro r hr
  exact prepRows_rowOK (ctxOf header rows) (rowsEnsured header rows) r hr

theorem dedupOut_groupsOK (header : Row) (rows : List Row) :
    GroupsOK (ctxOf header rows)
      (dedupEntries (ctxOf header rows) (prepOf header rows)) :=
  dedupEntries_ok _ (ctxOf_ok header rows) _ (prepOf_rowOK header rows)

/-- Re-running `dedupCore` on its own output reproduces it exactly. -/
theorem dedupCore_replay (header : Row) (rows : List Row) (hne : rows ≠ []) :
    dedupCore (headerOut header rows)
      (outRows (dedupEntries (ctxOf header rows) (prepOf header rows))) =
      dedupCore header rows := by
  set ctx := ctxOf header rows with hctxdef
  set gs := dedupEntries ctx (prepOf header rows) with hgsdef
  have hgsOK : GroupsOK ctx gs := dedupOut_groupsOK header rows
  have hout : ∀ r ∈ outRows gs, RowOK ctx r := outRows_rowOK ctx gs hgsOK
  unfold dedupCore
  rw [ensureCount_of_found (headerOut header rows) (outRows gs) (ciOf header rows)
    (findCI_count_out header rows)]
  show (headerOut header rows ::
      outRows (dedupEntries (mkCtx (headerOut header rows) (ciOf header rows))
        (prepRows (headerOut header rows).length (outRows gs)))) = dedupCore header rows
  have hctx2 : mkCtx (headerOut header rows) (ciOf header rows) = ctx := rfl
  rw [hctx2]
  have hprep : prepRows (headerOut header rows).length (outRows gs) = outRows gs := by
    have : (headerOut header rows).length = ctx.hlen := rfl
    rw [this]
    exact prepRows_of_rowOK ctx (outRows gs) hout
  rw [hprep]
  have hreplay : dedupEntries ctx (outRows gs) = gs := by
    unfold dedupEntries
    have := replay_groups ctx (ctxOf_ok header rows) gs []
      (by simpa using hgsOK.1) (fun g hg => hgsOK.2 g hg)
    simpa using this
  rw [hreplay]
  exact (dedupCore_eq header rows).symm

/-- Claim C2's content at the function level. -/
theorem deduplicate_sheet_idem (data : List Row) :
    deduplicate_sheet (deduplicate_sheet data) = deduplicate_sheet data := by
  match data with
  | [] => rfl
  | [h] => rfl
  | header :: r :: rest =>
    rw [deduplicate_sheet_cons]
    have hne : (r :: rest : List Row) ≠ [] := by simp
    rw [dedupCore_eq header (r :: rest)]
    set ctx := ctxOf header (r :: rest) with hctxdef
    set gs := dedupEntries ctx (prepOf header (r :: rest)) with hgsdef
    have hgsne : gs ≠ [] :=
      dedupEntries_ne_nil ctx _ (prepOf_ne_nil header (r :: rest) hne)
    have houtne : outRows gs ≠ [] :=
      outRows_ne_nil ctx gs (dedupOut_groupsOK header (r :: rest)) hgsne
    cases houtc : outRows gs with
    | nil => exact absurd houtc houtne
    | cons r2 rest2 =>
      rw [deduplicate_sheet_cons]
      rw [← houtc]
      rw [hgsdef, hctxdef]
      rw [dedupCore_replay header (r :: rest) hne]
      rw [← dedupCore_eq header (r :: rest)]

/-! ### Count-sum conservation -/

theorem newEntry_count (ctx : Ctx) (row : Row) (cnt : Int) (prof : List (Nat × String)) :
    (newEntry ctx row cnt prof).count = cnt := rfl

theorem entryCountSum_append (l1 l2 : List Entry) :
    entryCountSum (l1 ++ l2) = entryCountSum l1 + entryCountSum l2 := by
  simp [entryCountSum]

theorem absorb_countSum (ctx : Ctx) (row : Row) (cnt : Int)
    (prof : List (Nat × String)) (es : List Entry) :
    entryCountSum (absorb ctx row cnt prof es) = entryCountSum es + cnt := by
  rcases absorb_spec ctx row cnt prof es with
    ⟨pre, e, post, heq, _, _, habs⟩ | ⟨_, habs⟩
  · subst heq
    rw [habs]
    rw [entryCountSum_append, entryCountSum_append]
    show _ + ((mergeInto ctx e row cnt prof).count + entryCountSum post) = _
    rw [mergeInto_count]
    show _ = entryCountSum pre + (e.count + entryCountSum post) + cnt
    ring
  · rw [habs, entryCountSum_append]
    show entryCountSum es + ((newEntry ctx row cnt prof).count + 0) = _
    rw [newEntry_count]
    ring

theorem gupdate_countSum (k : Key) (f : List Entry → List Entry) (cnt : Int)
    (hf : ∀ es, entryCountSum (f es) = entryCountSum es + cnt) :
    ∀ gs : Groups, groupsCountSum (gupdate k f gs) = groupsCountSum gs + cnt := by
  intro gs
  induction gs with
  | nil =>
    show groupsCountSum [(k, f [])] = groupsCountSum [] + cnt
    simp only [groupsCountSum, List.map_cons, List.map_nil, List.sum_cons, List.sum_nil]
    rw [hf []]
    simp [entryCountSum]
  | cons g rest ih =>
    obtain ⟨k0, es0⟩ := g
    show groupsCountSum (if k0 = k then (k0, f es0) :: rest else (k0, es0) :: gupdate k f rest) = _
    split
    · simp only [groupsCountSum, List.map_cons, List.sum_cons]
      rw [hf es0]
      show entryCountSum es0 + cnt + (rest.map (fun g => entryCountSum g.2)).sum = _
      ring
    · simp only [groupsCountSum, List.map_cons, List.sum_cons]
      have := ih
      unfold groupsCountSum at this
      rw [this]
      ring

theorem processRow_countSum (ctx : Ctx) (gs : Groups) (row : Row) :
    groupsCountSum (processRow ctx gs row) = groupsCountSum gs + rowCount ctx row := by
  unfold processRow
  exact gupdate_countSum _ _ _ (fun es => absorb_countSum ctx row (rowCount ctx row) _ es) gs

theorem dedupEntries_countSum (ctx : Ctx) (rows : List Row) :
    groupsCountSum (dedupEntries ctx rows) = rowCountSum ctx rows := by
  unfold dedupEntries
  have : ∀ (l : List Row) (gs : Groups),
      groupsCountSum (List.foldl (processRow ctx) gs l) =
        groupsCountSum gs + rowCountSum ctx l := by
    intro l
    induction l with
    | nil => intro gs; simp [rowCountSum]
    | cons r rest ih =>
      intro gs
      rw [List.foldl_cons, ih, processRow_countSum]
      show groupsCountSum gs + rowCount ctx r + rowCountSum ctx rest = _
      simp [rowCountSum]
      ring
  rw [this rows []]
  simp [groupsCountSum]

theorem countCellSum_cons (ci : Nat) (r : Row) (rest : List Row) :
    countCellSum ci (r :: rest) =
      (pyInt? (stripCell (r.getD ci ""))).getD 0 + countCellSum ci rest := by
  simp [countCellSum]

theorem countCellSum_append (ci : Nat) (l1 l2 : List Row) :
    countCellSum ci (l1 ++ l2) = countCellSum ci l1 + countCellSum ci l2 := by
  simp [countCellSum]

theorem countCellSum_entries (ctx : Ctx) (es : List Entry)
    (hes : ∀ e ∈ es, EntryOK ctx e) :
    countCellSum ctx.countIndex (es.map Entry.row) = entryCountSum es := by
  induction es with
  | nil => rfl
  | cons e rest ih =>
    rw [List.map_cons, countCellSum_cons]
    have he := hes e (by simp)
    have : (pyInt? (stripCell (e.row.getD ctx.countIndex ""))).getD 0 = e.count := by
      rw [he.2.1, stripCell_intStr, pyInt_intStr]
      rfl
    rw [this, ih (fun x hx => hes x (by simp [hx]))]
    show e.count + entryCountSum rest = entryCountSum (e :: rest)
    simp [entryCountSum]

theorem countCellSum_outRows (ctx : Ctx) (gs : Groups) (hgs : GroupsOK ctx gs) :
    countCellSum ctx.countIndex (outRows gs) = groupsCountSum gs := by
  induction gs with
  | nil => rfl
  | cons g rest ih =>
    rw [outRows_cons, countCellSum_append]
    rw [countCellSum_entries ctx g.2 (fun e he => ((hgs.2 g (by simp)).2.1 e he).1)]
    have hrest : GroupsOK ctx rest := by
      refine ⟨?_, fun g2 hg2 => hgs.2 g2 (by simp [hg2])⟩
      have := hgs.1
      rw [List.map_cons] at this
      exact (List.nodup_cons.mp this).2
    rw [ih hrest]
    simp [groupsCountSum]

theorem rowCount_prep (ctx : Ctx) (r : Row) (hci : ctx.countIndex < ctx.hlen) :
    rowCount ctx ((padTrunc ctx.hlen r).map stripCell) =
      (pyInt? (stripCell (r.getD ctx.countIndex ""))).getD 0 := by
  unfold rowCount
  rw [getD_map _ stripCell ctx.countIndex (by rw [padTrunc_length]; exact hci),
    stripCell_idem, padTrunc_getD _ _ _ hci]

theorem rowCountSum_prep (ctx : Ctx) (rows : List Row)
    (hci : ctx.countIndex < ctx.hlen) :
    rowCountSum ctx (prepRows ctx.hlen rows) = countCellSum ctx.countIndex rows := by
  induction rows with
  | nil => rfl
  | cons r rest ih =>
    unfold prepRows at ih ⊢
    rw [List.map_cons]
    show rowCount ctx ((padTrunc ctx.hlen r).map stripCell) +
      rowCountSum ctx (List.map _ rest) = _
    rw [rowCount_prep ctx r hci, ih, countCellSum_cons]

theorem headerOut_of_found (header : Row) (rows : List Row) (i : Nat)
    (hf : find_column_index_ci header "Count" = some i) :
    headerOut header rows = header ∧ rowsEnsured header rows = rows ∧
      ciOf header rows = i := by
  unfold headerOut rowsEnsured ciOf
  rw [ensureCount_of_found header rows i hf]
  exact ⟨rfl, rfl, rfl⟩

theorem headerOut_of_none (header : Row) (rows : List Row)
    (hf : find_column_index_ci header "Count" = none) :
    headerOut header rows = header ++ ["Count"] ∧
      rowsEnsured header rows = rows.map (fun r => r ++ ["1"]) ∧
      ciOf header rows = header.length := by
  unfold headerOut rowsEnsured ciOf ensureCount
  rw [hf]
  exact ⟨rfl, rfl, rfl⟩

theorem rowCount_appended (ctx : Ctx) (r : Row)
    (hlen : r.length + 1 = ctx.hlen) (hci : ctx.countIndex + 1 = ctx.hlen) :
    rowCount ctx ((padTrunc ctx.hlen (r ++ ["1"])).map stripCell) = 1 := by
  have hlen2 : (r ++ ["1"]).length = ctx.hlen := by simp; omega
  unfold rowCount
  rw [getD_map _ stripCell ctx.countIndex (by rw [padTrunc_length]; omega),
    stripCell_idem, padTrunc_getD _ _ _ (by omega)]
  have hcieq : ctx.countIndex = r.length := by omega
  rw [hcieq, getD_append_singleton]
  decide

/-! ### The ghost-counted scan projects onto the real one -/

theorem absorb_cons (ctx : Ctx) (row : Row) (cnt : Int) (prof : List (Nat × String))
    (e : Entry) (es : List Entry) :
    absorb ctx row cnt prof (e :: es) =
      if compatible ctx.ois e.opt prof then mergeInto ctx e row cnt prof :: es
      else e :: absorb ctx row cnt prof es := rfl

theorem absorbI_cons (ctx : Ctx) (row : Row) (cnt : Int) (prof : List (Nat × String))
    (x : EntryI) (xs : List EntryI) :
    absorbI ctx row cnt prof (x :: xs) =
      if compatible ctx.ois x.e.opt prof then
        ⟨mergeInto ctx x.e row cnt prof, x.srcs + 1⟩ :: xs
      else x :: absorbI ctx row cnt prof xs := rfl

theorem absorbI_proj (ctx : Ctx) (row : Row) (cnt : Int) (prof : List (Nat × String)) :
    ∀ xs : List EntryI,
      (absorbI ctx row cnt prof xs).map EntryI.e =
        absorb ctx row cnt prof (xs.map EntryI.e) := by
  intro xs
  induction xs with
  | nil => rfl
  | cons x rest ih =>
    rw [List.map_cons, absorbI_cons, absorb_cons]
    by_cases hc : compatible ctx.ois x.e.opt prof
    · rw [if_pos hc, if_pos hc]
      rfl
    · rw [if_neg hc, if_neg hc, List.map_cons, ih]

theorem gupdate_cons {ε : Type} (k : Key) (f : List ε → List ε) (k0 : Key)
    (es0 : List ε) (rest : List (Key × List ε)) :
    gupdate k f ((k0, es0) :: rest) =
      if k0 = k then (k0, f es0) :: rest else (k0, es0) :: gupdate k f rest := rfl

theorem forgetI_cons (k0 : Key) (xs0 : List EntryI) (rest : GroupsI) :
    forgetI ((k0, xs0) :: rest) = (k0, xs0.map EntryI.e) :: forgetI rest := rfl

theorem gupdate_proj (k : Key) (fI : List EntryI → List EntryI)
    (f : List Entry → List Entry)
    (hk : ∀ xs, (fI xs).map EntryI.e = f (xs.map EntryI.e)) :
    ∀ gsI : GroupsI, forgetI (gupdate k fI gsI) = gupdate k f (forgetI gsI) := by
  intro gsI
  induction gsI with
  | nil =>
    show forgetI [(k, fI [])] = gupdate k f []
    unfold forgetI gupdate
    simp [hk []]
  | cons g rest ih =>
    obtain ⟨k0, xs0⟩ := g
    rw [gupdate_cons, forgetI_cons, gupdate_cons]
    by_cases hkk : k0 = k
    · rw [if_pos hkk, if_pos hkk, forgetI_cons, hk xs0]
    · rw [if_neg hkk, if_neg hkk, forgetI_cons, ih]

theorem processRowI_proj (ctx : Ctx) (gsI : GroupsI) (row : Row) :
    forgetI (processRowI ctx gsI row) = processRow ctx (forgetI gsI) row := by
  unfold processRowI processRow
  exact gupdate_proj _ _ _ (absorbI_proj ctx row (rowCount ctx row) (profileOf ctx row)) gsI

theorem dedupEntriesI_proj (ctx : Ctx) (rows : List Row) :
    forgetI (dedupEntriesI ctx rows) = dedupEntries ctx rows := by
  unfold dedupEntriesI dedupEntries
  have : ∀ (l : List Row) (gsI : GroupsI),
      forgetI (List.foldl (processRowI ctx) gsI l) =
        List.foldl (processRow ctx) (forgetI gsI) l := by
    intro l
    induction l with
    | nil => intro gsI; rfl
    | cons r rest ih =>
      intro gsI
      rw [List.foldl_cons, List.foldl_cons, ih, processRowI_proj]
  exact this rows []

theorem gupdate_forall_prop {ε : Type} (P : ε → Prop) (k : Key)
    (f : List ε → List ε)
    (hf : ∀ xs, (∀ x ∈ xs, P x) → ∀ x ∈ f xs, P x) :
    ∀ gs : List (Key × List ε),
      (∀ g ∈ gs, ∀ x ∈ g.2, P x) →
      ∀ g ∈ gupdate k f gs, ∀ x ∈ g.2, P x := by
  intro gs
  induction gs with
  | nil =>
    intro _ g hg
    rcases List.mem_singleton.mp hg with rfl
    exact hf [] (by simp)
  | cons g0 rest ih =>
    intro hold g hg
    obtain ⟨k0, xs0⟩ := g0
    unfold gupdate at hg
    split at hg
    · rcases List.mem_cons.mp hg with h1 | h1
      · subst h1
        exact hf xs0 (hold (k0, xs0) (by simp))
      · exact hold g (by simp [h1])
    · rcases List.mem_cons.mp hg with h1 | h1
      · exact h1 ▸ hold (k0, xs0) (by simp)
      · exact ih (fun g2 hg2 => hold g2 (by simp [hg2])) g h1

theorem absorbI_srcs (ctx : Ctx) (row : Row) (cnt : Int)
    (prof : List (Nat × String)) (hcnt : 1 ≤ cnt) :
    ∀ xs : List EntryI,
      (∀ x ∈ xs, 1 ≤ x.srcs ∧ (x.srcs : Int) ≤ x.e.count) →
      ∀ x ∈ absorbI ctx row cnt prof xs, 1 ≤ x.srcs ∧ (x.srcs : Int) ≤ x.e.count := by
  intro xs
  induction xs with
  | nil =>
    intro _ x hx
    rcases List.mem_singleton.mp hx with rfl
    exact ⟨le_refl 1, by
      rw [newEntry_count]
      simpa using hcnt⟩
  | cons x0 rest ih =>
    intro hall x hx
    unfold absorbI at hx
    split at hx
    · rcases List.mem_cons.mp hx with h1 | h1
      · subst h1
        have h0 := hall x0 (by simp)
        constructor
        · show 1 ≤ x0.srcs + 1
          omega
        · show ((x0.srcs + 1 : Nat) : Int) ≤ (mergeInto ctx x0.e row cnt prof).count
          rw [mergeInto_count]
          have h2 : (x0.srcs : Int) ≤ x0.e.count := h0.2
          have h4 : ((x0.srcs + 1 : Nat) : Int) = (x0.srcs : Int) + 1 := by push_cast; ring
          rw [h4]
          omega
      · exact hall x (by simp [h1])
    · rcases List.mem_cons.mp hx with h1 | h1
      · exact h1 ▸ hall x0 (by simp)
      · exact ih (fun y hy => hall y (by simp [hy])) x h1

theorem dedupEntriesI_srcs (ctx : Ctx) (rows : List Row)
    (hpos : ∀ r ∈ rows, 1 ≤ rowCount ctx r) :
    ∀ g ∈ dedupEntriesI ctx rows, ∀ x ∈ g.2,
      1 ≤ x.srcs ∧ (x.srcs : Int) ≤ x.e.count := by
  unfold dedupEntriesI
  refine foldl_inv (P := fun gsI : GroupsI =>
    ∀ g ∈ gsI, ∀ x ∈ g.2, 1 ≤ x.srcs ∧ (x.srcs : Int) ≤ x.e.count) _ _ (by simp) ?_
  intro gsI r hr hold
  unfold processRowI
  exact gupdate_forall_prop _ _ _
    (absorbI_srcs ctx r (rowCount ctx r) (profileOf ctx r) (hpos r hr)) gsI hold

/-! ### Where a row's non-empty optional values end up -/

theorem compat_true_elem (ois : List Nat) (a b : List (Nat × String))
    (h : compatible ois a b = true) (i : Nat) (hi : i ∈ ois) :
    pget a i = "" ∨ pget b i = "" ∨ pget a i = pget b i := by
  unfold compatible at h
  rw [List.all_eq_true] at h
  have h2 := h i hi
  simp only [Bool.or_eq_true, decide_eq_true_eq] at h2
  tauto

theorem entriesAt_gupdate_self (k : Key) (f : List Entry → List Entry) :
    ∀ gs : Groups, entriesAt k (gupdate k f gs) = f (entriesAt k gs) := by
  intro gs
  induction gs with
  | nil =>
    show entriesAt k [(k, f [])] = f (entriesAt k [])
    unfold entriesAt
    rw [if_pos rfl]
  | cons g rest ih =>
    obtain ⟨k0, es0⟩ := g
    rw [gupdate_cons]
    by_cases hk : k0 = k
    · rw [if_pos hk]
      show (if k0 = k then f es0 else entriesAt k rest) =
        f (if k0 = k then es0 else entriesAt k rest)
      rw [if_pos hk, if_pos hk]
    · rw [if_neg hk]
      show (if k0 = k then es0 else entriesAt k (gupdate k f rest)) =
        f (if k0 = k then es0 else entriesAt k rest)
      rw [if_neg hk, if_neg hk, ih]

theorem entriesAt_gupdate_ne (k k2 : Key) (f : List Entry → List Entry)
    (hne : k2 ≠ k) :
    ∀ gs : Groups, entriesAt k2 (gupdate k f gs) = entriesAt k2 gs := by
  intro gs
  induction gs with
  | nil =>
    show entriesAt k2 [(k, f [])] = entriesAt k2 []
    unfold entriesAt
    rw [if_neg (fun h => hne h.symm)]
    rfl
  | cons g rest ih =>
    obtain ⟨k0, es0⟩ := g
    rw [gupdate_cons]
    by_cases hk : k0 = k
    · rw [if_pos hk]
      show (if k0 = k2 then f es0 else entriesAt k2 rest) =
        (if k0 = k2 then es0 else entriesAt k2 rest)
      rw [if_neg (by rw [hk]; exact fun h => hne h.symm),
        if_neg (by rw [hk]; exact fun h => hne h.symm)]
    · rw [if_neg hk]
      show (if k0 = k2 then es0 else entriesAt k2 (gupdate k f rest)) = _
      by_cases hk2 : k0 = k2
      · rw [if_pos hk2]
        show _ = (if k0 = k2 then es0 else entriesAt k2 rest)
        rw [if_pos hk2]
      · rw [if_neg hk2, ih]
        show _ = (if k0 = k2 then es0 else entriesAt k2 rest)
        rw [if_neg hk2]

theorem entriesAt_sub (k : Key) :
    ∀ (gs : Groups) (e : Entry), e ∈ entriesAt k gs →
      ∃ g ∈ gs, g.1 = k ∧ e ∈ g.2 := by
  intro gs
  induction gs with
  | nil => intro e he; simp [entriesAt] at he
  | cons g rest ih =>
    intro e he
    obtain ⟨k0, es0⟩ := g
    unfold entriesAt at he
    split at he
    · next hk => exact ⟨(k0, es0), by simp, hk, he⟩
    · obtain ⟨g2, hg2, hk2, he2⟩ := ih e he
      exact ⟨g2, by simp [hg2], hk2, he2⟩

theorem pget_absorb_insert (ctx : Ctx) (row : Row) (cnt : Int) (es : List Entry)
    (hes : ∀ x ∈ es, EntryOK ctx x) (c : Nat) (hc : c ∈ ctx.ois)
    (hne : pget (profileOf ctx row) c ≠ "") :
    ∃ e2 ∈ absorb ctx row cnt (profileOf ctx row) es,
      pget e2.opt c = pget (profileOf ctx row) c := by
  rcases absorb_spec ctx row cnt (profileOf ctx row) es with
    ⟨pre, e0, post, heq, _, hcomp, habs⟩ | ⟨_, habs⟩
  · refine ⟨mergeInto ctx e0 row cnt (profileOf ctx row), by rw [habs]; simp, ?_⟩
    have he0 : EntryOK ctx e0 := hes e0 (by rw [heq]; simp)
    rw [mergeInto_pget ctx e0 row cnt _ he0 c hc]
    rcases compat_true_elem ctx.ois e0.opt (profileOf ctx row) hcomp c hc with h1 | h1 | h1
    · rw [if_pos h1]
    · exact absurd h1 hne
    · by_cases h2 : pget e0.opt c = ""
      · rw [if_pos h2]
      · rw [if_neg h2]
        exact h1
  · refine ⟨newEntry ctx row cnt (profileOf ctx row), by rw [habs]; simp, ?_⟩
    rfl

theorem pget_absorb_persist (ctx : Ctx) (row : Row) (cnt : Int)
    (prof : List (Nat × String)) (es : List Entry)
    (hes : ∀ x ∈ es, EntryOK ctx x) (c : Nat) (hc : c ∈ ctx.ois) (v : String)
    (hv : v ≠ "") (h : ∃ e ∈ es, pget e.opt c = v) :
    ∃ e2 ∈ absorb ctx row cnt prof es, pget e2.opt c = v := by
  obtain ⟨e, he, hval⟩ := h
  rcases absorb_spec ctx row cnt prof es with
    ⟨pre, e0, post, heq, _, _, habs⟩ | ⟨_, habs⟩
  · subst heq
    rcases List.mem_append.mp he with h1 | h1
    · exact ⟨e, by rw [habs]; simp [h1], hval⟩
    · rcases List.mem_cons.mp h1 with h2 | h2
      · subst h2
        refine ⟨mergeInto ctx e row cnt prof, by rw [habs]; simp, ?_⟩
        rw [mergeInto_pget_nonempty ctx e row cnt prof (hes e he) c hc (by rw [hval]; exact hv)]
        exact hval
      · exact ⟨e, by rw [habs]; simp [h2], hval⟩
  · exact ⟨e, by rw [habs]; simp [he], hval⟩

theorem entriesAt_entryOK (ctx : Ctx) (gs : Groups) (hgs : GroupsOK ctx gs)
    (k : Key) : ∀ e ∈ entriesAt k gs, EntryOK ctx e := by
  intro e he
  obtain ⟨g, hg, _, he2⟩ := entriesAt_sub k gs e he
  exact ((hgs.2 g hg).2.1 e he2).1

theorem persist_foldl (ctx : Ctx) (hctx : CtxOK ctx) (c : Nat) (hc : c ∈ ctx.ois)
    (v : String) (hv : v ≠ "") (k : Key) :
    ∀ (rows : List Row) (gs : Groups), GroupsOK ctx gs →
      (∀ r ∈ rows, RowOK ctx r) →
      (∃ e ∈ entriesAt k gs, pget e.opt c = v) →
      ∃ e ∈ entriesAt k (List.foldl (processRow ctx) gs rows), pget e.opt c = v := by
  intro rows
  induction rows with
  | nil => intro gs _ _ h; exact h
  | cons r rest ih =>
    intro gs hgs hrows h
    rw [List.foldl_cons]
    refine ih (processRow ctx gs r) (processRow_ok ctx hctx gs r hgs (hrows r (by simp)))
      (fun x hx => hrows x (by simp [hx])) ?_
    by_cases hk : identityKey ctx r = k
    · unfold processRow
      rw [← hk, entriesAt_gupdate_self]
      rw [hk]
      exact pget_absorb_persist ctx r (rowCount ctx r) (profileOf ctx r)
        (entriesAt k gs) (entriesAt_entryOK ctx gs hgs k) c hc v hv h
    · unfold processRow
      rw [entriesAt_gupdate_ne _ _ _ (fun h2 => hk h2.symm)]
      exact h

/-- Every processed row deposits its non-empty normalized optional value in
some entry under its identity key, and that value survives to the end of the
scan. -/
theorem carried (ctx : Ctx) (hctx : CtxOK ctx) (rows : List Row)
    (hrows : ∀ r ∈ rows, RowOK ctx r) (ri : Row) (hmem : ri ∈ rows) (c : Nat)
    (hc : c ∈ ctx.ois) (hne : pget (profileOf ctx ri) c ≠ "") :
    ∃ e ∈ entriesAt (identityKey ctx ri) (dedupEntries ctx rows),
      pget e.opt c = pget (profileOf ctx ri) c := by
  obtain ⟨l1, l2, hsplit⟩ := List.append_of_mem hmem
  subst hsplit
  unfold dedupEntries
  rw [List.foldl_append, List.foldl_cons]
  have hgs1 : GroupsOK ctx (List.foldl (processRow ctx) [] l1) := by
    refine foldl_inv (P := fun gs : Groups => GroupsOK ctx gs) _ _ ⟨by simp, by simp⟩ ?_
    intro gs r hr hgs
    exact processRow_ok ctx hctx gs r hgs (hrows r (by simp [hr]))
  set gs1 := List.foldl (processRow ctx) [] l1 with hgs1def
  have hri : RowOK ctx ri := hrows ri (by simp)
  have hstep : ∃ e ∈ entriesAt (identityKey ctx ri) (processRow ctx gs1 ri),
      pget e.opt c = pget (profileOf ctx ri) c := by
    unfold processRow
    rw [entriesAt_gupdate_self]
    exact pget_absorb_insert ctx ri (rowCount ctx ri) (entriesAt (identityKey ctx ri) gs1)
      (entriesAt_entryOK ctx gs1 hgs1 _) c hc hne
  exact persist_foldl ctx hctx c hc _ hne (identityKey ctx ri) l2
    (processRow ctx gs1 ri)
    (processRow_ok ctx hctx gs1 ri hgs1 hri)
    (fun x hx => hrows x (by simp [hx])) hstep

/-! ### Retry lemmas -/

theorem withRetryGo_succ_ok {α : Type} {fn : Nat → CallResult α} {jitter : Nat → ℚ}
    {maxA : Nat} {base maxD : ℚ} {attempt f : Nat} {sl0 : List ℚ} {v : α}
    (hfa : fn attempt = .ok v) :
    withRetryGo fn jitter maxA base maxD attempt (f + 1) sl0 =
      ⟨Except.ok (some v), attempt, sl0⟩ := by
  conv_lhs => rw [withRetryGo]
  rw [hfa]

theorem withRetryGo_succ_http {α : Type} {fn : Nat → CallResult α} {jitter : Nat → ℚ}
    {maxA : Nat} {base maxD : ℚ} {attempt f : Nat} {sl0 : List ℚ} {st : Nat}
    {ra : Option ℚ} (hfa : fn attempt = .httpErr st ra) :
    withRetryGo fn jitter maxA base maxD attempt (f + 1) sl0 =
      if !isRetryableStatus st || attempt = maxA then
        ⟨Except.error (.http st ra), attempt, sl0⟩
      else
        withRetryGo fn jitter maxA base maxD (attempt + 1) f
          (sl0 ++ [effBackoff fn base maxD attempt + jitter attempt]) := by
  conv_lhs => rw [withRetryGo]
  rw [hfa]

theorem withRetryGo_succ_other {α : Type} {fn : Nat → CallResult α} {jitter : Nat → ℚ}
    {maxA : Nat} {base maxD : ℚ} {attempt f : Nat} {sl0 : List ℚ} {tg : Nat}
    (hfa : fn attempt = .otherErr tg) :
    withRetryGo fn jitter maxA base maxD attempt (f + 1) sl0 =
      if attempt = maxA then ⟨Except.error (.other tg), attempt, sl0⟩
      else
        withRetryGo fn jitter maxA base maxD (attempt + 1) f
          (sl0 ++ [rawBackoff base maxD attempt + jitter attempt]) := by
  conv_lhs => rw [withRetryGo]
  rw [hfa]

theorem withRetryGo_sleeps_mem {α : Type} (fn : Nat → CallResult α)
    (jitter : Nat → ℚ) (maxA : Nat) (base maxD : ℚ) :
    ∀ (fuel attempt : Nat) (sl0 : List ℚ),
      ∀ s ∈ (withRetryGo fn jitter maxA base maxD attempt fuel sl0).sleeps,
        s ∈ sl0 ∨ ∃ a, attempt ≤ a ∧ s = sleepAt fn jitter base maxD a := by
  intro fuel
  induction fuel with
  | zero =>
    intro attempt sl0 s hs
    exact Or.inl hs
  | succ f ih =>
    intro attempt sl0 s hs
    cases hfa : fn attempt with
    | ok v =>
      rw [withRetryGo_succ_ok hfa] at hs
      exact Or.inl hs
    | httpErr st ra =>
      rw [withRetryGo_succ_http hfa] at hs
      split at hs
      · exact Or.inl hs
      · rcases ih (attempt + 1) _ s hs with h1 | ⟨a, ha, hval⟩
        · rcases List.mem_append.mp h1 with h2 | h2
          · exact Or.inl h2
          · rw [List.mem_singleton] at h2
            refine Or.inr ⟨attempt, le_refl _, ?_⟩
            rw [h2]
            unfold sleepAt
            rw [hfa]
        · exact Or.inr ⟨a, by omega, hval⟩
    | otherErr t =>
      rw [withRetryGo_succ_other hfa] at hs
      split at hs
      · exact Or.inl hs
      · rcases ih (attempt + 1) _ s hs with h1 | ⟨a, ha, hval⟩
        · rcases List.mem_append.mp h1 with h2 | h2
          · exact Or.inl h2
          · rw [List.mem_singleton] at h2
            refine Or.inr ⟨attempt, le_refl _, ?_⟩
            rw [h2]
            unfold sleepAt
            rw [hfa]
        · exact Or.inr ⟨a, by omega, hval⟩

theorem withRetry_two_retryable {α : Type} (fn : Nat → CallResult α)
    (jitter : Nat → ℚ) (v : α) (s1 s2 : Nat)
    (h1 : fn 1 = .httpErr s1 none) (h2 : fn 2 = .httpErr s2 none) (h3 : fn 3 = .ok v)
    (hr1 : isRetryableStatus s1 = true) (hr2 : isRetryableStatus s2 = true) :
    withRetryDefault fn jitter =
      ⟨Except.ok (some v), 3, [3/2 + jitter 1, 3 + jitter 2]⟩ := by
  simp only [withRetryDefault, with_retry, withRetryGo, h1, h2, h3, hr1, hr2,
    effBackoff, rawBackoff]
  norm_num



/-! ### Equivalence of `_normalize_length` with its amended description -/

theorem mapOpt_nil {α β : Type} (f : α → Option β) : mapOpt f [] = some [] := rfl

theorem mapOpt_cons {α β : Type} (f : α → Option β) (a : α) (l : List α) :
    mapOpt f (a :: l) =
      match f a, mapOpt f l with
      | some b, some r => some (b :: r)
      | _, _ => none := rfl

theorem lenPartVal_ne (p : List Char) (h : p ≠ []) : lenPartVal p = pyInt? ⟨p⟩ := by
  unfold lenPartVal
  rw [if_neg h]

theorem timeCheckRender_eq (h m sec : Int) (s : String) :
    timeCheckRender h m sec s = if timeOK h m sec then renderHMS h m sec else s := by
  unfold timeCheckRender timeOK renderHMS
  split_ifs <;> first | rfl | (exfalso; simp_all; try omega)

theorem filtered_branch (s : String) (parts : List (List Char))
    (hp : ∀ p ∈ parts, p ≠ []) :
    (match parts with
     | [mm, ss] =>
       (match lenPartVal mm, lenPartVal ss with
        | some m, some sec => timeCheckRender 0 m sec s
        | _, _ => s)
     | [hh, mm, ss] =>
       (match lenPartVal hh, lenPartVal mm, lenPartVal ss with
        | some h, some m, some sec => timeCheckRender h m sec s
        | _, _, _ => s)
     | _ => s) =
    (match mapOpt (fun p => pyInt? ⟨p⟩) parts with
     | some [m, sec] => if timeOK 0 m sec then renderHMS 0 m sec else s
     | some [h, m, sec] => if timeOK h m sec then renderHMS h m sec else s
     | _ => s) := by
  rcases parts with _ | ⟨a, _ | ⟨b, _ | ⟨c, _ | ⟨d, rest⟩⟩⟩⟩
  · rfl
  · simp only [mapOpt_cons, mapOpt_nil]
    cases hA : pyInt? ⟨a⟩ <;> rfl
  · have ha : a ≠ [] := hp a (by simp)
    have hb : b ≠ [] := hp b (by simp)
    simp only [mapOpt_cons, mapOpt_nil, lenPartVal_ne a ha, lenPartVal_ne b hb]
    cases hA : pyInt? ⟨a⟩ <;> cases hB : pyInt? ⟨b⟩ <;>
      simp [timeCheckRender_eq]
  · have ha : a ≠ [] := hp a (by simp)
    have hb : b ≠ [] := hp b (by simp)
    have hc : c ≠ [] := hp c (by simp)
    simp only [mapOpt_cons, mapOpt_nil, lenPartVal_ne a ha, lenPartVal_ne b hb,
      lenPartVal_ne c hc]
    cases hA : pyInt? ⟨a⟩ <;> cases hB : pyInt? ⟨b⟩ <;> cases hC : pyInt? ⟨c⟩ <;>
      simp [timeCheckRender_eq]
  · simp only [mapOpt_cons]
    cases hA : pyInt? ⟨a⟩ <;> cases hB : pyInt? ⟨b⟩ <;> cases hC : pyInt? ⟨c⟩ <;>
      cases hD : pyInt? ⟨d⟩ <;>
      cases hR : mapOpt (fun p => pyInt? ⟨p⟩) rest <;> rfl

theorem normalize_length_eq_amended (value : String) :
    normalize_length value = normalizeLengthAmended value := by
  have hne : ∀ p ∈ nonEmptyParts value, p ≠ [] := by
    intro p hp
    unfold nonEmptyParts at hp
    have h2 := (List.mem_filter.mp hp).2
    simpa using h2
  by_cases hs : normKey value = ""
  · unfold normalize_length normalizeLengthAmended
    rw [if_pos hs, if_pos hs]
  · unfold normalize_length normalizeLengthAmended
    rw [if_neg hs, if_neg hs]
    exact filtered_branch (normKey value) (nonEmptyParts value) hne

/-! ### Support lemmas for the claim statements -/

theorem rowCountSum_appended_all (ctx : Ctx) (rows : List Row)
    (hci : ctx.countIndex + 1 = ctx.hlen)
    (hlen : ∀ r ∈ rows, r.length + 1 = ctx.hlen) :
    rowCountSum ctx (prepRows ctx.hlen (rows.map (fun r => r ++ ["1"]))) =
      (rows.length : Int) := by
  induction rows with
  | nil => rfl
  | cons r rest ih =>
    unfold prepRows at ih ⊢
    rw [List.map_cons, List.map_cons]
    show rowCount ctx ((padTrunc ctx.hlen (r ++ ["1"])).map stripCell) +
      rowCountSum ctx (List.map _ (List.map _ rest)) = _
    rw [rowCount_appended ctx r (hlen r (by simp)) hci,
      ih (fun x hx => hlen x (by simp [hx]))]
    push_cast [List.length_cons]
    ring

theorem outputCountSum_dedupCore (header : Row) (rows : List Row) :
    outputCountSum (dedupCore header rows) =
      rowCountSum (ctxOf header rows) (prepOf header rows) := by
  rw [dedupCore_eq]
  simp only [outputCountSum, findCI_count_out]
  have hci : ciOf header rows = (ctxOf header rows).countIndex := rfl
  rw [hci, countCellSum_outRows _ _ (dedupOut_groupsOK header rows),
    dedupEntries_countSum]

theorem prep_appended_getD (n : Nat) (r : Row) (hr : r.length = n) :
    ((padTrunc (n + 1) (r ++ ["1"])).map stripCell).getD n "" = "1" := by
  rw [getD_map _ stripCell n (by rw [padTrunc_length]; omega),
    padTrunc_getD _ _ _ (by omega), ← hr, getD_append_singleton]
  rfl

theorem dedupEntriesI_entryOK (header : Row) (rows : List Row) :
    ∀ g ∈ dedupEntriesI (ctxOf header rows) (prepOf header rows), ∀ x ∈ g.2,
      EntryOK (ctxOf header rows) x.e := by
  intro g hg x hx
  have hOK := dedupOut_groupsOK header rows
  rw [← dedupEntriesI_proj] at hOK
  have hmem : (g.1, g.2.map EntryI.e) ∈
      forgetI (dedupEntriesI (ctxOf header rows) (prepOf header rows)) := by
    unfold forgetI
    exact List.mem_map_of_mem _ hg
  exact ((hOK.2 _ hmem).2.1 x.e (List.mem_map_of_mem EntryI.e hx)).1

/-! ## The claims -/

/-- C1: for the table with header `["Title", "Length", "BPM"]` (no Count
column) and data rows `["Song A", "3:00", "100"]` and
`["Song A", "03:00", "100.0"]`, the engine appends a `"Count"` column to the
header and merges the two rows (their Length and BPM variants normalize
equal) into exactly one data row whose Count cell is `"2"`. -/
theorem claim_C1 :
    deduplicate_sheet
        [["Title", "Length", "BPM"],
         ["Song A", "3:00", "100"],
         ["Song A", "03:00", "100.0"]] =
      [["Title", "Length", "BPM", "Count"],
       ["Song A", "3:00", "100", "2"]] := by decide

/-- C2: the deduplication engine is idempotent on every table, exactly
(in particular up to row order): running it on its own output is a no-op. -/
theorem claim_C2 (T : List Row) :
    deduplicate_sheet (deduplicate_sheet T) = deduplicate_sheet T :=
  deduplicate_sheet_idem T

/-- C3 counterexample: for the table `[["Title"], ["X", "Y"]]` — a ragged
data row one cell longer than the Count-less header — the appended `"1"` is
truncated away and the Count cell position holds `"Y"`, so the output Count
sum is 0 while the Count-completed input sum is 1. -/
theorem claim_C3_counterexample :
    outputCountSum (deduplicate_sheet [["Title"], ["X", "Y"]]) ≠
      claimInputSum [["Title"], ["X", "Y"]] := by decide

/-- C3 (amended): the sum of the Count cells over the output data rows
equals the sum over the Count-completed input data rows, provided every
input data row has exactly the header length (so the appended `"1"` of a
Count-less table lands at the recorded Count index). -/
theorem claim_C3 (header : Row) (rows : List Row)
    (hlen : ∀ r ∈ rows, r.length = header.length) :
    outputCountSum (deduplicate_sheet (header :: rows)) =
      claimInputSum (header :: rows) := by
  cases rows with
  | nil =>
    show outputCountSum [header] = claimInputSum [header]
    cases hf : find_column_index_ci header "Count" <;>
      simp [outputCountSum, claimInputSum, hf, countCellSum]
  | cons r rest =>
    rw [deduplicate_sheet_cons, outputCountSum_dedupCore]
    cases hf : find_column_index_ci header "Count" with
    | some i =>
      obtain ⟨hh, hr, hci⟩ := headerOut_of_found header (r :: rest) i hf
      have hlt : i < header.length := findCI_lt header "Count" i hf
      unfold prepOf ctxOf
      rw [hh, hr, hci]
      have h1 : header.length = (mkCtx header i).hlen := rfl
      rw [h1, rowCountSum_prep (mkCtx header i) (r :: rest)
        (by rw [mkCtx_count, mkCtx_hlen]; exact hlt), mkCtx_count]
      simp only [claimInputSum, hf]
    | none =>
      obtain ⟨hh, hr, hci⟩ := headerOut_of_none header (r :: rest) hf
      unfold prepOf ctxOf
      rw [hh, hr, hci]
      have h1 : (header ++ ["Count"]).length =
          (mkCtx (header ++ ["Count"]) header.length).hlen := rfl
      have hciA : (mkCtx (header ++ ["Count"]) header.length).countIndex + 1 =
          (mkCtx (header ++ ["Count"]) header.length).hlen := by
        rw [mkCtx_count, mkCtx_hlen]
        simp
      have hlenA : ∀ x ∈ (r :: rest : List Row), x.length + 1 =
          (mkCtx (header ++ ["Count"]) header.length).hlen := by
        intro x hx
        rw [mkCtx_hlen]
        simp [hlen x hx]
      rw [h1, rowCountSum_appended_all (mkCtx (header ++ ["Count"]) header.length)
        (r :: rest) hciA hlenA]
      simp only [claimInputSum, hf]

/-- C3 witness: the amended equality at the table
`[["Title", "Length"], ["Song A", "3:00"]]`. -/
theorem claim_C3_witness :
    (∀ r ∈ [["Song A", "3:00"]], List.length r = List.length ["Title", "Length"]) ∧
    outputCountSum (deduplicate_sheet (["Title", "Length"] :: [["Song A", "3:00"]])) =
      claimInputSum (["Title", "Length"] :: [["Song A", "3:00"]]) :=
  ⟨by decide, claim_C3 ["Title", "Length"] [["Song A", "3:00"]] (by decide)⟩

/-- C4 counterexample: for the table `[["Title", "Count"], ["X", "n/a"]]`
the single output entry absorbs 1 source row but its Count is 0 (the cell
`"n/a"` parses as 0), so the output Count is strictly below the number of
source rows the entry represents. -/
theorem claim_C4_counterexample :
    ∃ g ∈ dedupEntriesI (ctxOf ["Title", "Count"] [["X", "n/a"]])
        (prepOf ["Title", "Count"] [["X", "n/a"]]),
      ∃ x ∈ g.2, x.e.count < (x.srcs : Int) := by decide

/-- C4 (amended): when every preprocessed data row has Count at least 1
(in particular whenever the Count column was freshly added, every cell being
`"1"`), every output entry carries a Count cell that parses back to its
running count, which is at least the number of source rows the entry
absorbed — and that number is at least 1, so the entry is retained. -/
theorem claim_C4 (header : Row) (rows : List Row)
    (hpos : ∀ r ∈ prepOf header rows, 1 ≤ rowCount (ctxOf header rows) r) :
    ∀ g ∈ dedupEntriesI (ctxOf header rows) (prepOf header rows), ∀ x ∈ g.2,
      pyInt? (x.e.row.getD (ctxOf header rows).countIndex "") = some x.e.count ∧
      1 ≤ x.srcs ∧ (x.srcs : Int) ≤ x.e.count := by
  intro g hg x hx
  have hsrcs := dedupEntriesI_srcs (ctxOf header rows) (prepOf header rows) hpos g hg x hx
  have hOK := dedupEntriesI_entryOK header rows g hg x hx
  exact ⟨by rw [hOK.2.1, pyInt_intStr], hsrcs.1, hsrcs.2⟩

/-- C4 witness: the amended invariant at `[["Title", "Count"], ["X", "2"]]`. -/
theorem claim_C4_witness :
    (∀ r ∈ prepOf ["Title", "Count"] [["X", "2"]],
        1 ≤ rowCount (ctxOf ["Title", "Count"] [["X", "2"]]) r) ∧
    (∀ g ∈ dedupEntriesI (ctxOf ["Title", "Count"] [["X", "2"]])
        (prepOf ["Title", "Count"] [["X", "2"]]), ∀ x ∈ g.2,
      pyInt? (x.e.row.getD (ctxOf ["Title", "Count"] [["X", "2"]]).countIndex "") =
          some x.e.count ∧
      1 ≤ x.srcs ∧ (x.srcs : Int) ≤ x.e.count) :=
  ⟨by decide, claim_C4 ["Title", "Count"] [["X", "2"]] (by decide)⟩

/-- C5: two preprocessed data rows with the same identity key whose optional
profiles clash at some optional column (both non-empty, different values)
yield two distinct output rows — neither merged nor dropped — each keeping
its own value at that column. -/
theorem claim_C5 (header : Row) (rows : List Row) (r1 r2 : Row) (c : Nat)
    (h1 : r1 ∈ prepOf header rows) (h2 : r2 ∈ prepOf header rows)
    (hk : identityKey (ctxOf header rows) r1 = identityKey (ctxOf header rows) r2)
    (hc : c ∈ (ctxOf header rows).ois)
    (hv1 : pget (profileOf (ctxOf header rows) r1) c ≠ "")
    (hv2 : pget (profileOf (ctxOf header rows) r2) c ≠ "")
    (hne : pget (profileOf (ctxOf header rows) r1) c ≠
      pget (profileOf (ctxOf header rows) r2) c) :
    ∃ w1 ∈ outRows (dedupEntries (ctxOf header rows) (prepOf header rows)),
      ∃ w2 ∈ outRows (dedupEntries (ctxOf header rows) (prepOf header rows)),
        w1 ≠ w2 ∧
        pget (profileOf (ctxOf header rows) w1) c =
          pget (profileOf (ctxOf header rows) r1) c ∧
        pget (profileOf (ctxOf header rows) w2) c =
          pget (profileOf (ctxOf header rows) r2) c := by
  obtain ⟨e1, he1, hp1⟩ := carried (ctxOf header rows) (ctxOf_ok header rows)
    (prepOf header rows) (prepOf_rowOK header rows) r1 h1 c hc hv1
  obtain ⟨e2, he2, hp2⟩ := carried (ctxOf header rows) (ctxOf_ok header rows)
    (prepOf header rows) (prepOf_rowOK header rows) r2 h2 c hc hv2
  have hgs := dedupOut_groupsOK header rows
  obtain ⟨g1, hg1, hk1, hin1⟩ := entriesAt_sub _ _ e1 he1
  obtain ⟨g2, hg2, hk2, hin2⟩ := entriesAt_sub _ _ e2 he2
  have hE1 : EntryOK (ctxOf header rows) e1 := ((hgs.2 g1 hg1).2.1 e1 hin1).1
  have hE2 : EntryOK (ctxOf header rows) e2 := ((hgs.2 g2 hg2).2.1 e2 hin2).1
  refine ⟨e1.row, ?_, e2.row, ?_, ?_, ?_, ?_⟩
  · exact (mem_outRows _ e1.row).mpr ⟨g1, hg1, e1, hin1, rfl⟩
  · exact (mem_outRows _ e2.row).mpr ⟨g2, hg2, e2, hin2, rfl⟩
  · intro heq
    apply hne
    rw [← hp1, ← hp2, hE1.2.2, hE2.2.2, heq]
  · rw [← hE1.2.2]
    exact hp1
  · rw [← hE2.2.2]
    exact hp2

/-- C5 witness: Scenario C — same Title and Length, Genre `"Rock"` against
`"Jazz"` — produces two distinct output rows. -/
theorem claim_C5_witness :
    pget (profileOf (ctxOf ["Title", "Length", "Genre"]
        [["Song", "3:00", "Rock"], ["Song", "3:00", "Jazz"]])
      ["Song", "3:00", "Rock", "1"]) 2 ≠
      pget (profileOf (ctxOf ["Title", "Length", "Genre"]
        [["Song", "3:00", "Rock"], ["Song", "3:00", "Jazz"]])
      ["Song", "3:00", "Jazz", "1"]) 2 ∧
    (∃ w1 ∈ outRows (dedupEntries
        (ctxOf ["Title", "Length", "Genre"]
          [["Song", "3:00", "Rock"], ["Song", "3:00", "Jazz"]])
        (prepOf ["Title", "Length", "Genre"]
          [["Song", "3:00", "Rock"], ["Song", "3:00", "Jazz"]])),
      ∃ w2 ∈ outRows (dedupEntries
        (ctxOf ["Title", "Length", "Genre"]
          [["Song", "3:00", "Rock"], ["Song", "3:00", "Jazz"]])
        (prepOf ["Title", "Length", "Genre"]
          [["Song", "3:00", "Rock"], ["Song", "3:00", "Jazz"]])),
        w1 ≠ w2 ∧
        pget (profileOf (ctxOf ["Title", "Length", "Genre"]
            [["Song", "3:00", "Rock"], ["Song", "3:00", "Jazz"]]) w1) 2 =
          pget (profileOf (ctxOf ["Title", "Length", "Genre"]
            [["Song", "3:00", "Rock"], ["Song", "3:00", "Jazz"]])
            ["Song", "3:00", "Rock", "1"]) 2 ∧
        pget (profileOf (ctxOf ["Title", "Length", "Genre"]
            [["Song", "3:00", "Rock"], ["Song", "3:00", "Jazz"]]) w2) 2 =
          pget (profileOf (ctxOf ["Title", "Length", "Genre"]
            [["Song", "3:00", "Rock"], ["Song", "3:00", "Jazz"]])
            ["Song", "3:00", "Jazz", "1"]) 2) :=
  ⟨by decide, claim_C5 ["Title", "Length", "Genre"]
    [["Song", "3:00", "Rock"], ["Song", "3:00", "Jazz"]]
    ["Song", "3:00", "Rock", "1"] ["Song", "3:00", "Jazz", "1"] 2
    (by decide) (by decide) (by decide) (by decide) (by decide) (by decide) (by decide)⟩

/-- C6 counterexample: on `"3:"` the claimed normalizer (empty part means 0)
returns `"3:00"`, but `_normalize_length` drops the empty part before
counting, is left with one part, rejects, and returns `"3:"` unchanged. -/
theorem claim_C6_counterexample :
    normalize_length "3:" ≠ normalizeLengthClaim "3:" := by decide

/-- C6 (amended): `_normalize_length` first drops empty parts, accepts
exactly 2 or 3 non-empty colon-separated integer parts with seconds and
minutes below 60 and nothing negative, and canonicalizes to `M:SS` or
`H:MM:SS`; in particular `"00:2:54"`, `"0:02:54"` and `"2:54"` all
normalize to `"2:54"`. -/
theorem claim_C6 :
    (∀ value, normalize_length value = normalizeLengthAmended value) ∧
    normalize_length "00:2:54" = "2:54" ∧
    normalize_length "0:02:54" = "2:54" ∧
    normalize_length "2:54" = "2:54" :=
  ⟨normalize_length_eq_amended, by decide, by decide, by decide⟩

/-- C7 counterexample: with header `["Title", "Length"]` (no Count column)
and the short data row `["X"]`, the appended `"1"` sits at index 1, not at
the recorded Count index 2; after padding, the Count cell is `""`. -/
theorem claim_C7_counterexample :
    find_column_index_ci ["Title", "Length"] "Count" = none ∧
    ∃ r ∈ prepOf ["Title", "Length"] [["X"]],
      r.getD (ciOf ["Title", "Length"] [["X"]]) "" ≠ "1" := by decide

/-- C7 (amended): when the header lacks a Count column, `"Count"` is
appended to the header, and every data row whose length equals the header
length carries `"1"` at the recorded Count index after preprocessing. -/
theorem claim_C7 (header : Row) (rows : List Row)
    (hf : find_column_index_ci header "Count" = none)
    (hlen : ∀ r ∈ rows, r.length = header.length) :
    headerOut header rows = header ++ ["Count"] ∧
    ∀ r ∈ prepOf header rows, r.getD (ciOf header rows) "" = "1" := by
  obtain ⟨hh, hr, hci⟩ := headerOut_of_none header rows hf
  refine ⟨hh, ?_⟩
  intro r hrr
  unfold prepOf prepRows at hrr
  rw [hh, hr] at hrr
  rcases List.mem_map.mp hrr with ⟨x, hx, rfl⟩
  rcases List.mem_map.mp hx with ⟨y, hy, rfl⟩
  rw [hci]
  have hstep : (header ++ ["Count"]).length = header.length + 1 := by simp
  rw [hstep]
  exact prep_appended_getD header.length y (hlen y hy)

/-- C7 witness: the amended row completion at
`[["Title", "Length"], ["Song A", "3:00"]]`. -/
theorem claim_C7_witness :
    find_column_index_ci ["Title", "Length"] "Count" = none ∧
    (headerOut ["Title", "Length"] [["Song A", "3:00"]] =
        ["Title", "Length"] ++ ["Count"] ∧
      ∀ r ∈ prepOf ["Title", "Length"] [["Song A", "3:00"]],
        r.getD (ciOf ["Title", "Length"] [["Song A", "3:00"]]) "" = "1") :=
  ⟨by decide, claim_C7 ["Title", "Length"] [["Song A", "3:00"]] (by decide) (by decide)⟩

/-- C8 counterexample: with a server-supplied retry-after hint of 1000 s on
the first failure, the run still makes 3 calls and returns the third result,
but the first sleep is 1000 s, far above the 90 s maxDelay — the hint
override is not capped. -/
theorem claim_C8_counterexample :
    validJitter (fun a => if a = 1 then CallResult.httpErr 503 (some 1000)
        else if a = 2 then CallResult.httpErr 503 none else CallResult.ok (0 : Nat))
      (fun _ => 0) (3/2) 90 ∧
    (withRetryDefault (fun a => if a = 1 then CallResult.httpErr 503 (some 1000)
        else if a = 2 then CallResult.httpErr 503 none else CallResult.ok (0 : Nat))
      (fun _ => 0)).calls = 3 ∧
    (withRetryDefault (fun a => if a = 1 then CallResult.httpErr 503 (some 1000)
        else if a = 2 then CallResult.httpErr 503 none else CallResult.ok (0 : Nat))
      (fun _ => 0)).result = Except.ok (some 0) ∧
    ∃ s ∈ (withRetryDefault (fun a => if a = 1 then CallResult.httpErr 503 (some 1000)
        else if a = 2 then CallResult.httpErr 503 none else CallResult.ok (0 : Nat))
      (fun _ => 0)).sleeps, 90 < s := by
  have hrun : withRetryDefault (fun a => if a = 1 then CallResult.httpErr 503 (some 1000)
      else if a = 2 then CallResult.httpErr 503 none else CallResult.ok (0 : Nat))
      (fun _ => 0) = ⟨Except.ok (some 0), 3, [1000, 3]⟩ := by
    simp only [withRetryDefault, with_retry, withRetryGo, effBackoff, rawBackoff,
      isRetryableStatus]
    norm_num
  refine ⟨?_, ?_, ?_, ?_⟩
  · intro a
    refine ⟨le_refl 0, ?_⟩
    by_cases ha1 : a = 1
    · subst ha1
      simp [jitterCap, effBackoff, rawBackoff]
      norm_num [min_def, max_def]
    · by_cases ha2 : a = 2
      · subst ha2
        simp [jitterCap, effBackoff, rawBackoff]
        norm_num
      · simp [jitterCap, ha1, ha2]
  · rw [hrun]
  · rw [hrun]
  · rw [hrun]
    exact ⟨1000, by simp, by norm_num⟩

/-- C8 (amended): an operation failing with retryable statuses (and no
retry-after hint) on its first two invocations and succeeding on the third
is, under default options with jitter inside the uniform support, called
exactly 3 times, its third result returned, and every sleep stays at or
below the 90 s maxDelay. -/
theorem claim_C8 {α : Type} (fn : Nat → CallResult α) (jitter : Nat → ℚ) (v : α)
    (s1 s2 : Nat) (h1 : fn 1 = .httpErr s1 none) (h2 : fn 2 = .httpErr s2 none)
    (h3 : fn 3 = .ok v) (hr1 : isRetryableStatus s1 = true)
    (hr2 : isRetryableStatus s2 = true) (hj : validJitter fn jitter (3/2) 90) :
    (withRetryDefault fn jitter).calls = 3 ∧
    (withRetryDefault fn jitter).result = Except.ok (some v) ∧
    ∀ s ∈ (withRetryDefault fn jitter).sleeps, s ≤ 90 := by
  rw [withRetry_two_retryable fn jitter v s1 s2 h1 h2 h3 hr1 hr2]
  refine ⟨rfl, rfl, ?_⟩
  intro s hs
  have hj1 := (hj 1).2
  have hj2 := (hj 2).2
  have hc1 : jitterCap fn (3/2) 90 1 ≤ 1 := by
    unfold jitterCap
    rw [h1]
    exact min_le_left _ _
  have hc2 : jitterCap fn (3/2) 90 2 ≤ 1 := by
    unfold jitterCap
    rw [h2]
    exact min_le_left _ _
  cases hs with
  | head =>
    have hb : jitter 1 ≤ 1 := le_trans hj1 hc1
    linarith
  | tail _ hs2 =>
    cases hs2 with
    | head =>
      have hb : jitter 2 ≤ 1 := le_trans hj2 hc2
      linarith
    | tail _ hs3 => cases hs3

/-- C8 witness: the amended retry behaviour at a concrete operation failing
with 503 then 429 and succeeding on the third call, with zero jitter. -/
theorem claim_C8_witness :
    validJitter (fun a => if a = 1 then CallResult.httpErr 503 none
        else if a = 2 then CallResult.httpErr 429 none else CallResult.ok (0 : Nat))
      (fun _ => 0) (3/2) 90 ∧
    ((withRetryDefault (fun a => if a = 1 then CallResult.httpErr 503 none
        else if a = 2 then CallResult.httpErr 429 none else CallResult.ok (0 : Nat))
      (fun _ => 0)).calls = 3 ∧
    (withRetryDefault (fun a => if a = 1 then CallResult.httpErr 503 none
        else if a = 2 then CallResult.httpErr 429 none else CallResult.ok (0 : Nat))
      (fun _ => 0)).result = Except.ok (some 0) ∧
    ∀ s ∈ (withRetryDefault (fun a => if a = 1 then CallResult.httpErr 503 none
        else if a = 2 then CallResult.httpErr 429 none else CallResult.ok (0 : Nat))
      (fun _ => 0)).sleeps, s ≤ 90) := by
  have hj : validJitter (fun a => if a = 1 then CallResult.httpErr 503 none
      else if a = 2 then CallResult.httpErr 429 none else CallResult.ok (0 : Nat))
      (fun _ => 0) (3/2) 90 := by
    intro a
    refine ⟨le_refl 0, ?_⟩
    by_cases ha1 : a = 1
    · subst ha1
      simp [jitterCap, effBackoff, rawBackoff]
      norm_num [min_def, max_def]
    · by_cases ha2 : a = 2
      · subst ha2
        simp [jitterCap, effBackoff, rawBackoff]
        norm_num
      · simp [jitterCap, ha1, ha2]
  exact ⟨hj, claim_C8 (fun a => if a = 1 then CallResult.httpErr 503 none
    else if a = 2 then CallResult.httpErr 429 none else CallResult.ok (0 : Nat))
    (fun _ => 0) 0 503 429 rfl rfl rfl rfl rfl hj⟩

/-- C9 counterexample: in the generic (non-HttpError) retry branch the
jitter is drawn from `uniform(0, 1.0)` flat: at the first attempt a jitter
of 1 is inside the support, yet the claimed cap is
`min(1, backoff / 3) = 1/2`, so the sleep exceeds backoff plus the claimed
cap. -/
theorem claim_C9_counterexample :
    validJitter (fun _ => (CallResult.otherErr 0 : CallResult Nat)) (fun _ => 1)
      (3/2) 90 ∧
    ¬ (sleepAt (fun _ => (CallResult.otherErr 0 : CallResult Nat)) (fun _ => 1)
        (3/2) 90 1 ≤
      rawBackoff (3/2) 90 1 + min 1 (rawBackoff (3/2) 90 1 / 3)) := by
  constructor
  · intro a
    exact ⟨by norm_num, le_refl 1⟩
  · show ¬ (rawBackoff (3/2) 90 1 + 1 ≤
      rawBackoff (3/2) 90 1 + min 1 (rawBackoff (3/2) 90 1 / 3))
    have hraw : rawBackoff (3/2) 90 1 = 3/2 := by
      unfold rawBackoff
      norm_num
    rw [hraw]
    have hmin : min (1 : ℚ) (3/2 / 3) = 1/2 := by
      rw [min_eq_right] <;> norm_num
    rw [hmin]
    norm_num

/-- C9 (amended): in every retry iteration the sleep is the (hint-adjusted)
backoff plus a jitter bounded by the branch cap: `min(1, backoff / 3)` in
the HttpError branch but a flat 1 second in the generic branch. -/
theorem claim_C9 {α : Type} (fn : Nat → CallResult α) (jitter : Nat → ℚ)
    (maxA : Nat) (base maxD : ℚ) (hj : validJitter fn jitter base maxD) :
    ∀ s ∈ (with_retry fn jitter maxA base maxD).sleeps,
      ∃ a, 1 ≤ a ∧ s ≤ effBackoff fn base maxD a + jitterCap fn base maxD a := by
  intro s hs
  unfold with_retry at hs
  rcases withRetryGo_sleeps_mem fn jitter maxA base maxD maxA 1 [] s hs with h | ⟨a, ha, rfl⟩
  · cases h
  · refine ⟨a, ha, ?_⟩
    obtain ⟨hj0, hjc⟩ := hj a
    cases hfa : fn a with
    | ok v =>
      have hs1 : sleepAt fn jitter base maxD a = rawBackoff base maxD a + jitter a := by
        unfold sleepAt
        rw [hfa]
      have hs2 : effBackoff fn base maxD a = rawBackoff base maxD a := by
        unfold effBackoff
        rw [hfa]
      have hs3 : jitterCap fn base maxD a = 0 := by
        unfold jitterCap
        rw [hfa]
      rw [hs1, hs2, hs3]
      have hle : jitter a ≤ 0 := hs3 ▸ hjc
      linarith
    | httpErr st ra =>
      have hs1 : sleepAt fn jitter base maxD a = effBackoff fn base maxD a + jitter a := by
        unfold sleepAt
        rw [hfa]
      rw [hs1]
      linarith
    | otherErr tg =>
      have hs1 : sleepAt fn jitter base maxD a = rawBackoff base maxD a + jitter a := by
        unfold sleepAt
        rw [hfa]
      have hs2 : effBackoff fn base maxD a = rawBackoff base maxD a := by
        unfold effBackoff
        rw [hfa]
      rw [hs1, hs2]
      linarith

/-- C9 witness: the per-iteration sleep bound for a run of two always-failing
generic attempts with zero jitter. -/
theorem claim_C9_witness :
    validJitter (fun _ => (CallResult.otherErr 0 : CallResult Nat)) (fun _ => 0)
      (3/2) 90 ∧
    ∀ s ∈ (with_retry (fun _ => (CallResult.otherErr 0 : CallResult Nat)) (fun _ => 0)
        2 (3/2) 90).sleeps,
      ∃ a, 1 ≤ a ∧
        s ≤ effBackoff (fun _ => (CallResult.otherErr 0 : CallResult Nat)) (3/2) 90 a +
          jitterCap (fun _ => (CallResult.otherErr 0 : CallResult Nat)) (3/2) 90 a := by
  have hj : validJitter (fun _ => (CallResult.otherErr 0 : CallResult Nat)) (fun _ => 0)
      (3/2) 90 := by
    intro a
    refine ⟨le_refl 0, ?_⟩
    show (0 : ℚ) ≤ 1
    norm_num
  exact ⟨hj, claim_C9 (fun _ => (CallResult.otherErr 0 : CallResult Nat)) (fun _ => 0)
    2 (3/2) 90 hj⟩

/-- C10: an operation raising a non-HttpError exception at every invocation
is, under default options, invoked exactly 8 times with the full backoff
ladder slept between attempts, and the exception of the last attempt is then
propagated — no retryability classification is applied to generic errors. -/
theorem claim_C10 {α : Type} (tag : Nat → Nat) (jitter : Nat → ℚ) :
    withRetryDefault (fun a => (CallResult.otherErr (tag a) : CallResult α)) jitter =
      ⟨Except.error (PyErr.other (tag 8)), 8,
       [3/2 + jitter 1, 3 + jitter 2, 6 + jitter 3, 12 + jitter 4,
        24 + jitter 5, 48 + jitter 6, 90 + jitter 7]⟩ := by
  simp only [withRetryDefault, with_retry, withRetryGo, rawBackoff]
  norm_num

end DedupSpec
